import Mathlib

/-!
Shallow embedding of `autoimport` (files `src/autoimport/model.py` and
`src/autoimport/services.py`) for checking the natural-language specification.

A Python source file is modelled as a `List Char`; a physical line (the result
of `str.splitlines`) is likewise a `List Char` containing no newline character.
Each Python regular expression used by the code is hand-compiled to an
executable Boolean matcher; every matcher carries a doc comment citing the
regex it embeds and, where the compilation relies on a semantic simplification
(for instance, the maximality of a leading `\s*` run), the justification.
Because each line comes out of `splitlines`, it contains no `'\n'`, so the
regex metacharacter `.` (any character except newline) is compiled to
"any character".

The two external collaborators — the pyflakes analyzer reached through
`autoflake.check`, and the runtime symbol-index lookups
(`_find_package_in_modules`, `_find_package_in_libraries`,
`_find_package_in_our_project`) — are taken as parameters: pure functions of
the text/name they are given, exactly as the specification treats them.

Python statements that can raise (`first, next = line.split(";")` with more
than one separator, `list.remove` of an absent element) are modelled with
`Option`: `none` is an uncaught exception escaping `fix`.
-/

namespace Autoimport

/-- A physical source line (or a whole source text): a list of characters. -/
abbrev Line := List Char

/-- Coercion from Lean string literals used to write concrete inputs. -/
def str (s : String) : Line := s.data

/-- Python `\s` character class (whitespace recognised by `str.strip` as well). -/
def isPySpace (c : Char) : Bool :=
  c == ' ' || c == '\t' || c == '\n' || c == '\r' || c == '\x0b' || c == '\x0c'

/-- The character range `[a-z]`. -/
def isLowerAZ (c : Char) : Bool := 'a' ≤ c && c ≤ 'z'

/-- `pat` is literally a prefix of `l`. -/
def isPreL : Line → Line → Bool
  | [], _ => true
  | _ :: _, [] => false
  | p :: ps, c :: cs => p == c && isPreL ps cs

/-- `pat` occurs somewhere in `l` as a contiguous substring. -/
def containsSub (pat : Line) : Line → Bool
  | [] => isPreL pat []
  | c :: cs => isPreL pat (c :: cs) || containsSub pat cs

/-- Prefix match against the *interpolated* fragment of a Python regex: the
characters of a dotted name spliced into a pattern with an f-string are
regex-interpreted, so `'.'` matches any single character while the letters,
digits, underscores and spaces occurring in pyflakes symbol names match
literally. -/
def patPre : Line → Line → Bool
  | [], _ => true
  | _ :: _, [] => false
  | p :: ps, c :: cs => (p == '.' || p == c) && patPre ps cs

/-- `∃` a suffix of `l` at which the interpolated pattern `pat` matches
(the compilation of a leading lazy `.*?` before `pat`). -/
def existsPatOccur (pat : Line) : Line → Bool
  | [] => patPre pat []
  | c :: cs => patPre pat (c :: cs) || existsPatOccur pat cs

/-- Python `str.lstrip()`. -/
def lstripL (l : Line) : Line := l.dropWhile isPySpace

/-- Python `str.rstrip()`. -/
def rstripL (l : Line) : Line := (l.reverse.dropWhile isPySpace).reverse

/-- Python `str.strip()`. -/
def stripL (l : Line) : Line := rstripL (lstripL l)

/-- Python `"\n".join(lines)` (also reused for other separators). -/
def joinSep (sep : Line) : List Line → Line
  | [] => []
  | [x] => x
  | x :: y :: rest => x ++ sep ++ joinSep sep (y :: rest)

/-- Python `line.split(";")` — splits at every occurrence of the character. -/
def splitChar (sep : Char) : Line → List Line
  | [] => [[]]
  | c :: rest =>
    if c == sep then [] :: splitChar sep rest
    else
      match splitChar sep rest with
      | [] => [[c]]
      | h :: t => (c :: h) :: t

/-- Python `s.split(", ")` — splits at every non-overlapping occurrence of
the two-character separator, scanning left to right. -/
def splitCommaSpace : Line → List Line
  | [] => [[]]
  | ',' :: ' ' :: rest => [] :: splitCommaSpace rest
  | c :: rest =>
    match splitCommaSpace rest with
    | [] => [[c]]
    | h :: t => (c :: h) :: t

/-- Python `str.splitlines()` restricted to the terminators `\n`, `\r\n`,
`\r` (the only ones occurring in the texts considered): no entry is produced
for a terminator that ends the string. -/
def splitlines : Line → List Line
  | [] => []
  | '\n' :: rest => [] :: splitlines rest
  | '\r' :: '\n' :: rest => [] :: splitlines rest
  | '\r' :: rest => [] :: splitlines rest
  | c :: rest =>
    match splitlines rest with
    | [] => [[c]]
    | h :: t => (c :: h) :: t

/-- Python `source_code.endswith("\n")`. -/
def trailingNL (l : Line) : Bool :=
  match l.getLast? with
  | some c => c == '\n'
  | none => false

/-! ### The regexes of `_extract_header` / `_extract_import_statements` -/

/-- `re.match(r'"{3}.*"{3}', line)`: the line starts with `"""` and a second
`"""` occurs somewhere in the remainder (the greedy `.*` backtracks, so
matching is existential in the split point). -/
def matchSingleLineDocstring (l : Line) : Bool :=
  isPreL (str "\"\"\"") l && containsSub (str "\"\"\"") (l.drop 3)

/-- `re.match(r'""" ?', line)` and `re.match(r'"{3}.*', line)`: both reduce to
the line starting with `"""` (the trailing ` ?` / `.*` always match). -/
def matchTripleQuoteStart (l : Line) : Bool := isPreL (str "\"\"\"") l

/-- `re.match(r"#.*", line)`. -/
def matchComment (l : Line) : Bool := isPreL (str "#") l

/-- `re.match(r"^if TYPE_CHECKING:$", line)`. -/
def matchTypeChecking (l : Line) : Bool := l == str "if TYPE_CHECKING:"

/-- `re.match(r"^(try|except.*):$", line)`: the line is exactly `try:`, or
starts with `except` and ends with `:` (which forces length at least 7). -/
def matchTryExcept (l : Line) : Bool :=
  l == str "try:" ||
    (isPreL (str "except") l &&
      match l.getLast? with
      | some c => c == ':'
      | none => false)

/-- Both import-shape regexes end in `import` + one arbitrary character + a
run of characters that are not `'` or `"`, up to the end of the line.  This
checks that tail condition on the part of the line following the keyword. -/
def importKeywordTail : Line → Bool
  | [] => false
  | _ :: t => t.all (fun c => !(c == '\'' || c == '"'))

/-- `∃` an occurrence of `kw` in `l` whose remainder satisfies `check`
(compilation of `kw` preceded by a backtracking greedy `.*`). -/
def existsKwTail (kw : Line) (check : Line → Bool) : Line → Bool
  | [] => isPreL kw [] && check (([] : Line).drop kw.length)
  | c :: cs =>
    (isPreL kw (c :: cs) && check ((c :: cs).drop kw.length)) ||
      existsKwTail kw check cs

/-- `re.match(r"^\s*(from .*)?import.[^\'\"]*$", line)` of
`_extract_import_statements`.  The leading `\s*` must take the maximal
whitespace run: the next characters to match, `f` of `from` or `i` of
`import`, are not whitespace, so no shorter run can succeed. -/
def matchImportStatement (l : Line) : Bool :=
  let rest := l.dropWhile isPySpace
  (isPreL (str "from ") rest && existsKwTail (str "import") importKeywordTail (rest.drop 5)) ||
    (isPreL (str "import") rest && importKeywordTail (rest.drop 6))

/-- `re.match(r"^\s*(?:from .*)?import .[^\'\"]*$", line)` of
`_move_imports_to_top` — identical to the previous regex except that a space
is required after `import`. -/
def matchImportCandidate (l : Line) : Bool :=
  let rest := l.dropWhile isPySpace
  (isPreL (str "from ") rest && existsKwTail (str "import ") importKeywordTail (rest.drop 5)) ||
    (isPreL (str "import ") rest && importKeywordTail (rest.drop 7))

/-! ### Segmenter (`_split_code` and its four extraction passes) -/

/-- The `docstring_type` tri-state of `_extract_header`
(`None` / `"start_multiple_lines"` / `"multiple_lines"`). -/
inductive DocState where
  | nodoc
  | startML
  | multiML
deriving DecidableEq, Repr

/-- The loop of `_extract_header`: walk the lines, absorbing the module
docstring, leading comments and blank lines; stop (without absorbing) at the
first line that is none of those and is not inside an open docstring. -/
def extractHeaderAux (ds : DocState) : List Line → List Line
  | [] => []
  | l :: rest =>
    if matchSingleLineDocstring l then [l]
    else if ds == .startML && matchTripleQuoteStart l then
      l :: extractHeaderAux .multiML rest
    else if matchTripleQuoteStart l then
      l :: extractHeaderAux .startML rest
    else if matchComment l || l == [] then
      l :: extractHeaderAux ds rest
    else if ds == .nodoc || ds == .multiML then []
    else l :: extractHeaderAux ds rest

/-- The loop of `_extract_import_statements`: absorb import-shaped lines,
blank lines and open multi-line imports, buffering a pending
`try:` / `except ...:` guard line; stop at `if TYPE_CHECKING:` or at the
first unrecognised line. -/
def extractImportsAux (mli : Bool) (tryLine : Option Line) : List Line → List Line
  | [] => []
  | l :: rest =>
    if matchTypeChecking l then []
    else if matchTryExcept l then extractImportsAux mli (some l) rest
    else if matchImportStatement l || l == [] || mli then
      let mli' := if l.contains '(' then true else if l.contains ')' then false else mli
      (match tryLine with
       | some t => t :: l :: extractImportsAux mli' none rest
       | none => l :: extractImportsAux mli' none rest)
    else []

/-- `re.match(r"^\s+.*", line)`: the line starts with a whitespace character. -/
def matchIndented : Line → Bool
  | [] => false
  | c :: _ => isPySpace c

/-- The inner loop of `_extract_typing_statements`: absorb indented or blank
lines after the `if TYPE_CHECKING:` opener. -/
def extractTypingAux : List Line → List Line
  | [] => []
  | l :: rest =>
    if !matchIndented l && l ≠ [] then []
    else l :: extractTypingAux rest

/-- `_extract_typing_statements`, given the lines following the imports. -/
def extractTyping : List Line → List Line
  | [] => []
  | l :: rest => if matchTypeChecking l then l :: extractTypingAux rest else []

/-- The state of a `SourceCode` object: the four ordered sections plus the
trailing-newline flag.  (The `config` attribute, used only by the resolver,
is passed to the resolver functions separately.) -/
structure SourceCode where
  header : List Line
  imports : List Line
  typing : List Line
  code : List Line
  trailingNewline : Bool
deriving DecidableEq, Repr

/-- `_split_code` (and `__init__`): split the source into the four sections
and record whether it ended with a line terminator. -/
def splitCode (source : Line) : SourceCode :=
  let ls := splitlines source
  let h := extractHeaderAux .nodoc ls
  let rest1 := ls.drop h.length
  let imps := extractImportsAux false none rest1
  let rest2 := rest1.drop imps.length
  let typ := extractTyping rest2
  let code := rest2.drop typ.length
  { header := h, imports := imps, typing := typ, code := code,
    trailingNewline := trailingNL source }

/-! ### Join (`_join_code` / `_append_section`) -/

/-- `"\n".join(section)`. -/
def joinLines (sec : List Line) : Line := joinSep [ '\n' ] sec

/-- `_append_section`: skip an empty section (or one equal to `[""]`);
otherwise append `empty_lines` newline characters and the stripped joined
section text. -/
def appendSection (acc : Line) (sec : List Line) (emptyLines : Nat) : Line :=
  if sec.length == 0 || sec == [[]] then acc
  else acc ++ List.replicate emptyLines '\n' ++ stripL (joinLines sec)

/-- `_join_code`: append the four sections with 0/2/2/3 separating newline
characters, strip the result, and reapply the trailing-newline flag. -/
def joinCode (sc : SourceCode) : Line :=
  let s := appendSection (appendSection (appendSection
            (appendSection [] sc.header 0) sc.imports 2) sc.typing 2) sc.code 3
  let s := stripL s
  if sc.trailingNewline then s ++ ['\n'] else s

/-! ### `_should_ignore_line` and the relocator (`_move_imports_to_top`) -/

/-- Compilation of `.*?# ?kw` followed by `.*?after.*`: an occurrence of `#`,
then optionally one space, then the literal `kw`, with `after` occurring
somewhere in the remainder. -/
def matchHashKw (kw after : Line) : Line → Bool :=
  existsKwTail (str "#")
    (fun rest =>
      (isPreL kw rest && containsSub after (rest.drop kw.length)) ||
        (match rest with
         | ' ' :: r2 => isPreL kw r2 && containsSub after (r2.drop kw.length)
         | _ => false))

/-- `_should_ignore_line`:
`re.match(r".*?# ?fmt:.*?skip.*", line)` or
`re.match(r".*?# ?noqa:.*?autoimport.*", line)`. -/
def shouldIgnoreLine (l : Line) : Bool :=
  matchHashKw (str "fmt:") (str "skip") l ||
    matchHashKw (str "noqa:") (str "autoimport") l

/-- The quote characters of the multi-line-string toggle regexes. -/
def isQuoteChar (c : Char) : Bool := c == '"' || c == '\''

/-- `re.match(r"^.*?(\"|\'){3}.*?(?!\1{3})$", line)`: the lazy `.*?` runs are
existential under backtracking, and the negative lookahead placed at `$`
always succeeds (no three characters remain at the end of the line), so the
regex matches exactly when three consecutive quote characters (each
independently `"` or `'`) occur somewhere in the line. -/
def matchTripleAnywhere : Line → Bool
  | a :: b :: c :: rest =>
    (isQuoteChar a && isQuoteChar b && isQuoteChar c) ||
      matchTripleAnywhere (b :: c :: rest)
  | _ => false

/-- Three consecutive occurrences of the character `ch` somewhere in the line
(the backreference `\1{3}`). -/
def containsRun3 (ch : Char) : Line → Bool
  | a :: b :: c :: rest =>
    (a == ch && b == ch && c == ch) || containsRun3 ch (b :: c :: rest)
  | _ => false

/-- `re.match(r"^.*?(\"|\'){3}.*?\1{3}", line)`: some position holds three
consecutive quote characters whose last one, captured as `\1`, reoccurs three
consecutive times further right. -/
def matchTripleClosed : Line → Bool
  | a :: b :: c :: rest =>
    (isQuoteChar a && isQuoteChar b && isQuoteChar c && containsRun3 c rest) ||
      matchTripleClosed (b :: c :: rest)
  | _ => false

/-- `_split_separation_line`: `first, next = line.split(";")` — `none` models
the `ValueError` the unpacking raises when the split does not yield exactly
two parts; the remainder is re-indented with as many spaces as the first part
has leading whitespace characters. -/
def splitSeparationLine (l : Line) : Option (Line × Line) :=
  match splitChar ';' l with
  | [first, next] =>
    let numLspaces := first.length - (lstripL first).length
    some (first, List.replicate numLspaces ' ' ++ lstripL next)
  | _ => none

/-- The scan of `_move_imports_to_top` over `self.code`: returns the code
lines after in-place separator replacements, the lines appended to
`self.imports`, and `code_lines_to_remove` — or `none` if
`_split_separation_line` raised.  The in-place assignment
`self.code[line_num] = next_line` happens at the index currently being
visited, so it never affects the remaining iteration. -/
def movePassAux (mlImp mlStr : Bool) : List Line → Option (List Line × List Line × List Line)
  | [] => some ([], [], [])
  | l :: rest =>
    if matchTripleAnywhere l && !matchTripleClosed l then
      (movePassAux mlImp (!mlStr) rest).map (fun (c, add, rem) => (l :: c, add, rem))
    else if ((!l.contains '=') && !mlStr && matchImportCandidate l) || mlImp then
      if shouldIgnoreLine l then
        (movePassAux mlImp mlStr rest).map (fun (c, add, rem) => (l :: c, add, rem))
      else if l.contains ';' then
        match splitSeparationLine l with
        | none => none
        | some (importLine, nextLine) =>
          (movePassAux mlImp mlStr rest).map (fun (c, add, rem) =>
            (nextLine :: c, stripL importLine :: add, rem))
      else
        let mlImp' := if l.contains '(' then true else if l.contains ')' then false else mlImp
        let stored := if !mlImp' then stripL l else l
        (movePassAux mlImp' mlStr rest).map (fun (c, add, rem) =>
          (l :: c, stored :: add, l :: rem))
    else
      (movePassAux mlImp mlStr rest).map (fun (c, add, rem) => (l :: c, add, rem))

/-- `_move_imports_to_top`: run the scan, then `self.code.remove(line)` for
each recorded line — Python's remove-by-value, which deletes the *first*
occurrence of the value (it cannot be absent here, each removal having been
recorded for a distinct surviving occurrence). -/
def moveImportsToTop (sc : SourceCode) : Option SourceCode :=
  (movePassAux false false sc.code).map (fun (c, add, rem) =>
    { sc with
      code := rem.foldl (fun cd l => cd.erase l) c
      imports := sc.imports ++ add })

/-! ### Unused-import pruner (`_remove_unused_imports`)

The dotted name reported by pyflakes is interpolated into the patterns with
f-strings, so within the spliced fragments `'.'` is a metacharacter; the
fixed parts of each pattern are matched literally (`patPre` coincides with
`isPreL` on them, as they contain no `'.'`). -/

/-- The tail group `( *#.*)?$` of the whole-line pattern on the remainder
`r`: either `r` is empty (group absent, `$`), or `r` is spaces followed by
`#` and anything.  The greedy ` *` is forced: every matched space is a
literal `' '`, and `#` is not a space, so the split point is unique. -/
def commentEnd (r : Line) : Bool :=
  r.isEmpty ||
    (match r.dropWhile (fun c => c == ' ') with
     | '#' :: _ => true
     | _ => false)

/-- `[a-z]+` followed by `( *#.*)?$`: at least one lowercase letter, after
some of which the comment-or-end tail matches (the greedy `+` backtracks, so
the split is existential). -/
def lowersThenComment : Line → Bool
  | [] => false
  | c :: rest => isLowerAZ c && (commentEnd rest || lowersThenComment rest)

/-- The tail `( *as [a-z]+)?( *#.*)?$` on the remainder `r`: either the alias
group is absent and `r` is comment-or-end, or spaces then `as ` then a
lowercase run then comment-or-end (the leading ` *` is forced maximal: `a`
is not a space). -/
def aliasCommentEnd (r : Line) : Bool :=
  commentEnd r ||
    (let r2 := r.dropWhile (fun c => c == ' ')
     isPreL (str "as ") r2 && lowersThenComment (r2.drop 3))

/-- `re.match(rf"(from {p} )?import ({p}\.)?{o}( *as [a-z]+)?( *#.*)?$", line)`
(the "only line" pattern): the optional `from`-group is an alternation, the
optional `({p}\.)?` likewise; `\.` is a literal dot. -/
def wholeLineMatch (p o l : Line) : Bool :=
  let afterImport := fun (r : Line) =>
    (patPre p r &&
      (match r.drop p.length with
       | '.' :: r2 => patPre o r2 && aliasCommentEnd (r2.drop o.length)
       | _ => false)) ||
    (patPre o r && aliasCommentEnd (r.drop o.length))
  (patPre (str "from " ++ p ++ str " import ") l && afterImport (l.drop (5 + p.length + 8))) ||
    (isPreL (str "import ") l && afterImport (l.drop 7))

/-- `re.match(rf"from {p} import .*?{o}", line)` (the shared-line test): the
fixed prefix, then `o` at any position of the remainder. -/
def sharedTopMatch (p o l : Line) : Bool :=
  patPre (str "from " ++ p ++ str " import ") l &&
    existsPatOccur o (l.drop (5 + p.length + 8))

/-- The shared-line edit: the inner
`re.match(rf"(from {p} import) (?P<imports>[^#]*)(?P<comment>#.*)?", line)`
always succeeds when `sharedTopMatch` did (its prefix is one space shorter),
with `match["from"]` the first `5+|p|+7` characters of the actual line,
`imports` the greedy run of non-`#` characters after the following space and
`comment` the rest.  The entry list is `imports.split(", ")` stripped;
`none` models the `ValueError` of `imports.remove(object_name)` when the
object is not literally an entry. -/
def sharedNewLine (p o l : Line) : Option Line :=
  let fromLen := 5 + p.length + 7
  let afterSpace := l.drop (fromLen + 1)
  let importsPart := afterSpace.takeWhile (fun c => !(c == '#'))
  let commentPart := afterSpace.dropWhile (fun c => !(c == '#'))
  let entries := (splitCommaSpace importsPart).map stripL
  if entries.contains o then
    let entries2 := entries.erase o
    let newImports := joinSep (str ", ") entries2
    let withC := if commentPart.isEmpty then newImports
                 else newImports ++ str "  " ++ commentPart
    some (l.take fromLen ++ ' ' :: withC)
  else none

/-- `re.match(rf"from {p} import .*?\($", line)` (the multi-line opener): the
fixed prefix and a final `(`; since the prefix ends in a space, the `(` lies
strictly after it. -/
def multiOpenMatch (p l : Line) : Bool :=
  patPre (str "from " ++ p ++ str " import ") l &&
    (match l.getLast? with
     | some c => c == '('
     | none => false)

/-- `re.match(rf"\s*?{o},?", line)` (a continuation line naming the object):
the lazy `\s*?` is existential over whitespace runs, and `,?` with no end
anchor imposes nothing, so: after some whitespace prefix, `o` matches. -/
def lazyWsThen (o : Line) : Line → Bool
  | [] => patPre o []
  | c :: cs => patPre o (c :: cs) || (isPySpace c && lazyWsThen o cs)

/-- `re.match(r"\s*from .* import", line)` (the collapse test on the line
before the closer): maximal whitespace (`f` is not whitespace), `from `, and
` import` occurring later. -/
def prevLineMatch (l : Line) : Bool :=
  let r := l.dropWhile isPySpace
  isPreL (str "from ") r && containsSub (str " import") (r.drop 5)

/-- The `while` loop of the multi-line branch: find the first index after
`li` whose line matches the continuation pattern. -/
def findContFrom (o : Line) (j : Nat) : List Line → Option Nat
  | [] => none
  | l :: rest => if lazyWsThen o l then some j else findContFrom o (j + 1) rest

/-- The collapse step after the `while` loop: if the line before index `k`
matches the `from ... import` shape and the line at `k` is exactly `)` then
pop both.  Python's negative indexing (`k = 0` reads and pops the last
element) is reproduced, although that branch is unreachable in practice. -/
def collapseCheck (xs : List Line) (k : Nat) : List Line :=
  let prevIdx := if k == 0 then xs.length - 1 else k - 1
  if prevLineMatch (xs.getD prevIdx []) && xs.getD k [] == str ")" then
    let xs1 := xs.eraseIdx k
    if k == 0 then xs1.eraseIdx (xs1.length - 1) else xs1.eraseIdx (k - 1)
  else xs

/-- The multi-line branch of `_remove_unused_imports`, starting from the
opener's index `li`: pop the first continuation line naming the object (the
loop ends at the last index when none matches), then run the collapse
check at the final index. -/
def multiBranch (o : Line) (imps : List Line) (li : Nat) : List Line :=
  match findContFrom o (li + 1) (imps.drop (li + 1)) with
  | some j => collapseCheck (imps.eraseIdx j) j
  | none => collapseCheck imps (imps.length - 1)

/-- The scan of `_remove_unused_imports` over `self.imports`: skip ignored
lines; the first line matching one of the three cases resolves the call.
`self.imports.remove(line)` / `self.imports.index(line)` act on the first
occurrence of the value — which is the occurrence being visited, since an
identical earlier line would have resolved the same way first. -/
def pruneScan (p o : Line) (imps : List Line) : List Line → Option (List Line)
  | [] => some imps
  | l :: rest =>
    if shouldIgnoreLine l then pruneScan p o imps rest
    else if wholeLineMatch p o l then some (imps.erase l)
    else if sharedTopMatch p o l then
      match sharedNewLine p o l with
      | some newLine => some (imps.set (imps.indexOf l) newLine)
      | none => none
    else if multiOpenMatch p l then some (multiBranch o imps (imps.indexOf l))
    else pruneScan p o imps rest

/-- `package_name` / `object_name`: all but the last dot-separated segment
rejoined, and the last segment. -/
def splitDotted (name : Line) : Line × Line :=
  let parts := splitChar '.' name
  (joinSep ['.'] parts.dropLast, parts.getLastD [])

/-- `_remove_unused_imports`. -/
def removeUnusedImports (importName : Line) (imps : List Line) : Option (List Line) :=
  let pd := splitDotted importName
  pruneScan pd.1 pd.2 imps imps

/-! ### Symbol resolver (`_find_package` and its four tiers) -/

/-- The module-level `common_statements` table, verbatim (including the
`timedelta` entry's import string). -/
def commonStatementsTable : List (Line × Line) :=
  [ (str "ABC", str "from abc import ABC"),
    (str "BaseModel", str "from pydantic import BaseModel"),
    (str "Field", str "from pydantic import Field"),
    (str "ValidationError", str "from pydantic import ValidationError"),
    (str "BeautifulSoup", str "from bs4 import BeautifulSoup"),
    (str "Enum", str "from enum import Enum"),
    (str "MagicMock", str "from unittest.mock import MagicMock"),
    (str "Path", str "from pathlib import Path"),
    (str "StringIO", str "from io import StringIO"),
    (str "YAMLError", str "from yaml import YAMLError"),
    (str "abstractmethod", str "from abc import abstractmethod"),
    (str "config", str "from decouple import config"),
    (str "datetime", str "from datetime import datetime"),
    (str "logger", str "from loguru import logger"),
    (str "patch", str "from unittest.mock import patch"),
    (str "suppress", str "from contextlib import suppress"),
    (str "timedelta", str "from datetime import datetime"),
    (str "timezone", str "from datetime import timezone"),
    (str "tz", str "from dateutil import tz") ]

/-- Dictionary lookup (`dict[k]` / `k in dict`): association list, first
match (a Python dict has no duplicate keys). -/
def dictLookup (d : List (Line × Line)) (k : Line) : Option Line :=
  (d.find? (fun e => e.1 == k)).map (fun e => e.2)

/-- The configuration surface reaching `_get_additional_statements`: the
value of `config["common_statements"]`, and the value of
`config["tool"]["autoimport"]["common_statements"]`, each possibly absent. -/
structure ResolveConfig where
  commonStatements : Option (List (Line × Line))
  toolNested : Option (List (Line × Line))

/-- `_get_additional_statements`: the flat key wins when its value is truthy
(a present non-empty dict); otherwise the nested key's value. -/
def getAdditionalStatements (cfg : ResolveConfig) : Option (List (Line × Line)) :=
  match cfg.commonStatements with
  | some d => if d.isEmpty then cfg.toolNested else some d
  | none => cfg.toolNested

/-- `_find_package_in_common_statements`: copy the built-in table, update it
with the additional statements when they are truthy, and look the name up —
equivalently, look the name up in the additional table first. -/
def findPackageInCommonStatements (cfg : ResolveConfig) (name : Line) : Option Line :=
  match getAdditionalStatements cfg with
  | some add =>
    if add.isEmpty then dictLookup commonStatementsTable name
    else
      match dictLookup add name with
      | some s => some s
      | none => dictLookup commonStatementsTable name
  | none => dictLookup commonStatementsTable name

/-- The three runtime lookup tiers (`_find_package_in_modules`,
`_find_package_in_libraries`, `_find_package_in_our_project`): external,
reflection-based collaborators, taken as pure functions of the name. -/
structure Finders where
  inModules : Line → Option Line
  inLibraries : Line → Option Line
  inOurProject : Line → Option Line

/-- `_find_package`: consult the four tiers in the listed order — common
statements, installed modules, common libraries, project packages — and
return the first hit. -/
def findPackage (f : Finders) (cfg : ResolveConfig) (name : Line) : Option Line :=
  match findPackageInCommonStatements cfg name with
  | some s => some s
  | none =>
    match f.inModules name with
    | some s => some s
    | none =>
      match f.inLibraries name with
      | some s => some s
      | none => f.inOurProject name

/-! ### Orchestrator (`fix` / `_fix_flake_import_errors` / `fix_code`) -/

/-- A pyflakes diagnostic as consumed by `_fix_flake_import_errors`:
`UndefinedName` and `UndefinedExport` carry an undefined symbol (both are
dispatched identically), `UnusedImport` an unused dotted import name. -/
inductive Diag where
  | undefinedName (n : Line)
  | unusedImport (n : Line)
deriving DecidableEq, Repr

/-- The message loop of `_fix_flake_import_errors`: undefined symbols are
resolved once each (`fixed_packages` deduplicates) and the found import
string appended to `self.imports`; unused imports are pruned (a raised
`ValueError` aborts everything: `none`). -/
def fixFlakeLoop (f : Finders) (cfg : ResolveConfig) :
    List Diag → List Line → SourceCode → Option SourceCode
  | [], _, sc => some sc
  | .undefinedName n :: rest, fixedPkgs, sc =>
    if fixedPkgs.contains n then fixFlakeLoop f cfg rest fixedPkgs sc
    else
      let sc2 :=
        match findPackage f cfg n with
        | some s => { sc with imports := sc.imports ++ [s] }
        | none => sc
      fixFlakeLoop f cfg rest (fixedPkgs ++ [n]) sc2
  | .unusedImport n :: rest, fixedPkgs, sc =>
    match removeUnusedImports n sc.imports with
    | some imps2 => fixFlakeLoop f cfg rest fixedPkgs { sc with imports := imps2 }
    | none => none

/-- `_fix_flake_import_errors`: run the analyzer on the joined current text
once, then process its messages in order. -/
def fixFlakeErrors (analyzer : Line → List Diag) (f : Finders) (cfg : ResolveConfig)
    (sc : SourceCode) : Option SourceCode :=
  fixFlakeLoop f cfg (analyzer (joinCode sc)) [] sc

/-- `fix_code` / `SourceCode.fix`: split, relocate, repair against the
analyzer's diagnostics, and rejoin.  `none` is an uncaught exception. -/
def fixCode (analyzer : Line → List Diag) (f : Finders) (cfg : ResolveConfig)
    (source : Line) : Option Line := do
  let sc := splitCode source
  let sc2 ← moveImportsToTop sc
  let sc3 ← fixFlakeErrors analyzer f cfg sc2
  pure (joinCode sc3)

/-- An analyzer that reports nothing (the behaviour of pyflakes on a text it
finds no fault with). -/
def noDiagnostics : Line → List Diag := fun _ => []

/-- Lookup tiers that find nothing. -/
def noFinders : Finders :=
  { inModules := fun _ => none, inLibraries := fun _ => none,
    inOurProject := fun _ => none }

/-- An empty configuration (no caller-supplied common statements). -/
def emptyConfig : ResolveConfig := { commonStatements := none, toolNested := none }

/-! ### Spec-side predicates

These two definitions follow the specification's words (not the code); they
state the properties the claims assert about the code's results. -/

/-- Modelled from the spec's relocation-completeness property: scanning the
body with the relocator's own multi-line-string toggle, some line matches
the import-candidate shape (no assignment operator, import shape, not inside
an open multi-line string) and does not carry an ignore marker. -/
def hasStrayImportCandidate : Bool → List Line → Bool
  | _, [] => false
  | mlStr, l :: rest =>
    if matchTripleAnywhere l && !matchTripleClosed l then
      hasStrayImportCandidate (!mlStr) rest
    else
      ((!l.contains '=') && !mlStr && matchImportCandidate l && !shouldIgnoreLine l) ||
        hasStrayImportCandidate mlStr rest

/-- Modelled from the spec's round-trip property: the sequence of non-blank
lines of a text, the residue that "equality modulo the fixed blank-line
separators between sections" must at least preserve. -/
def nonblankLines (l : Line) : List Line :=
  (splitlines l).filter (fun x => !x.isEmpty)

/-! ### Claim theorems -/

/-- C1 (counterexample evaluation).  The claim says `fix` is idempotent for
every input, the analyzer and symbol index being fixed pure functions.  On
`"x = 1\nimport os; import sys\nprint(os, sys)"` — a text pyflakes has
nothing to report about, so the analyzer returning no diagnostics is its
faithful behaviour — the first application splits the separator line and
leaves the remainder `import sys` in the body (the replaced line is never
re-scanned), and only the second application relocates it: `fix (fix t)`
differs from `fix t`. -/
theorem C1_fix_not_idempotent :
    fixCode noDiagnostics noFinders emptyConfig
        (str "x = 1\nimport os; import sys\nprint(os, sys)") =
      some (str "import os\n\n\nx = 1\nimport sys\nprint(os, sys)") ∧
    fixCode noDiagnostics noFinders emptyConfig
        (str "import os\n\n\nx = 1\nimport sys\nprint(os, sys)") =
      some (str "import os\n\n\nimport sys\n\n\nx = 1\nprint(os, sys)") ∧
    (str "import os\n\n\nx = 1\nimport sys\nprint(os, sys)") ≠
      (str "import os\n\n\nimport sys\n\n\nx = 1\nprint(os, sys)") := by
  refine ⟨by decide, by decide, by decide⟩

/-- C2 (counterexample evaluation).  The claim says that after relocation no
line remaining in the body matches the import-candidate shape unless ignored
or inside a multi-line string.  With the body
`x = 1 / """ / import os / """ / import os`, the relocator records the final
`import os` for removal but `list.remove` deletes the *first* occurrence of
that value — the one inside the string — so the body it leaves,
`x = 1 / """ / """ / import os`, still contains an unprotected
import-candidate line. -/
theorem C2_relocation_leaves_import_in_body :
    moveImportsToTop
        ⟨[], [], [],
         [str "x = 1", str "\"\"\"", str "import os", str "\"\"\"", str "import os"],
         false⟩ =
      some ⟨[], [str "import os"], [],
            [str "x = 1", str "\"\"\"", str "\"\"\"", str "import os"], false⟩ ∧
    hasStrayImportCandidate false
        [str "x = 1", str "\"\"\"", str "\"\"\"", str "import os"] = true := by
  refine ⟨by decide, by decide⟩

/-- C9 (failing evaluation).  The claim — taken from the spec's error-handling
design, which is clearly the intent — says `fix` never raises.  But on a body
line that is an import candidate and contains two statement separators,
`first_line, next_line = line.split(";")` unpacks a three-element list and
raises `ValueError`, which nothing catches: `fix` aborts. -/
theorem C9_fix_raises_on_double_separator :
    fixCode noDiagnostics noFinders emptyConfig
        (str "x = 1\nimport os; import sys; import re") = none := by decide

/-- C3 (counterexample).  The claim quantifies over every multi-symbol
single-line `from ... import` declaration, but the shared-line edit splits
the symbol list on `", "` (comma-space).  On the legal declaration
`from foo import a,b` — a comma with no following space — the list parses as
the single entry `a,b`, and `imports.remove("a")` raises `ValueError`
instead of deleting the symbol. -/
theorem C3_counterexample_comma_without_space :
    removeUnusedImports (str "foo.a") [str "from foo import a,b"] = none := by decide

/-- C5 (counterexample).  The claim says that for a text with no body-level
imports and no diagnostics, join ∘ segment returns the original text modulo
the fixed blank separator lines (and the trailing newline).  On the valid,
diagnostic-free text below the relocator finds nothing to move (first
conjunct), yet joining changes a non-blank line: the body starts with the
indented line `    x = os.getcwd()` (the `try:` guard and its import were
absorbed into the import section), and `_append_section` strips the joined
body, deleting the indentation — a difference no amount of blank-line
spacing accounts for (second conjunct). -/
theorem C5_roundtrip_counterexample :
    movePassAux false false
        (splitCode (str "try:\n    import os\n    x = os.getcwd()\nexcept ImportError:\n    x = None\nprint(x)\n")).code =
      some ((splitCode (str "try:\n    import os\n    x = os.getcwd()\nexcept ImportError:\n    x = None\nprint(x)\n")).code, [], []) ∧
    nonblankLines
        (joinCode (splitCode (str "try:\n    import os\n    x = os.getcwd()\nexcept ImportError:\n    x = None\nprint(x)\n"))) ≠
      nonblankLines (str "try:\n    import os\n    x = os.getcwd()\nexcept ImportError:\n    x = None\nprint(x)\n") := by
  refine ⟨by decide, by decide⟩

/-- C6 (counterexample).  The claim says each non-empty section after the
first is preceded by 2 (imports), 2 (typing) and 3 (body) blank separator
lines.  `_append_section` inserts that many newline *characters*, i.e. one
blank line fewer: with header `# h`, imports `import os` and body `x = 1`,
the joined text has exactly one blank line before the imports and two before
the body, not the claimed two and three. -/
theorem C6_separator_counterexample :
    splitlines (joinCode ⟨[str "# h"], [str "import os"], [], [str "x = 1"], false⟩) =
      [str "# h", [], str "import os", [], [], str "x = 1"] ∧
    splitlines (joinCode ⟨[str "# h"], [str "import os"], [], [str "x = 1"], false⟩) ≠
      [str "# h", [], [], str "import os", [], [], [], str "x = 1"] := by
  refine ⟨by decide, by decide⟩

/-- C7 (counterexample).  The claim allows any legal alias after `as`, but
the whole-line pattern's alias group is `( *as [a-z]+)?` — lowercase letters
only.  The line `import os as OS` declares `os` under a legal alias, yet
the pruner matches nothing and deletes nothing. -/
theorem C7_uppercase_alias_counterexample :
    removeUnusedImports (str "os") [str "import os as OS"] =
      some [str "import os as OS"] := by decide

/-- C8 (counterexample).  The claim covers every import-candidate body line
containing a statement separator, but `line.split(";")` is unpacked into
exactly two names: a candidate line with two separators raises `ValueError`
instead of being split into two parts. -/
theorem C8_two_semicolons_counterexample :
    moveImportsToTop ⟨[], [], [], [str "import sys; import json; import re"], false⟩ =
      none := by decide

/-- C10 (counterexample).  The claim says an ignore-marked import line is
never deleted or edited.  The whole-line and shared-line cases do skip such
lines, but the multi-line branch's `while` loop never consults
`_should_ignore_line`: the continuation line
`    bar,  # noqa: autoimport` carries the marker (second conjunct) and is
deleted anyway (first conjunct). -/
theorem C10_ignored_continuation_removed :
    removeUnusedImports (str "foo.bar")
        [str "from foo import (", str "    bar,  # noqa: autoimport",
         str "    baz,", str ")"] =
      some [str "from foo import (", str "    baz,", str ")"] ∧
    shouldIgnoreLine (str "    bar,  # noqa: autoimport") = true := by
  refine ⟨by decide, by decide⟩

/-- C4.  For every symbol name resolved by the merged common-statement table
(built-ins plus caller-supplied overrides under either accepted nesting
shape), `_find_package` returns the table's import string, whatever the
installed-module, common-library and project-package tiers would answer:
the common-statement tier is consulted first and its hit wins. -/
theorem C4_common_statements_priority (f : Finders) (cfg : ResolveConfig)
    (name s : Line) (h : findPackageInCommonStatements cfg name = some s) :
    findPackage f cfg name = some s := by
  unfold findPackage
  rw [h]

/-- Witness for C4: `Path` is in the built-in table, and even with tiers that
would answer `import zzz` / `import yyy`, the table's string wins. -/
theorem C4_common_statements_priority_witness :
    findPackage
        { inModules := fun _ => some (str "import zzz"),
          inLibraries := fun _ => some (str "import yyy"),
          inOurProject := fun _ => some (str "import xxx") }
        emptyConfig (str "Path") = some (str "from pathlib import Path") :=
  C4_common_statements_priority _ _ _ _ (by decide)

/-- The scan of `_remove_unused_imports` passes over every ignore-marked
line without resolving on it. -/
theorem pruneScan_of_all_ignored (p o : Line) (imps : List Line) :
    ∀ scan, (∀ l ∈ scan, shouldIgnoreLine l = true) →
      pruneScan p o imps scan = some imps := by
  intro scan h
  induction scan with
  | nil => rfl
  | cons l rest ih =>
    have hl : shouldIgnoreLine l = true := h l (List.mem_cons_self l rest)
    have hrest : ∀ x ∈ rest, shouldIgnoreLine x = true :=
      fun x hx => h x (List.mem_cons_of_mem l hx)
    simp only [pruneScan, hl, if_true]
    exact ih hrest

/-- C10 (amended).  A line carrying an ignore marker is never the line on
which the pruner's scan resolves: when every line of the imports section is
ignore-marked, `removeUnused` changes nothing, whatever dotted name the
diagnostic carries — the scan continues past each marked line.  (As the
counterexample shows, this protection does not extend to continuation lines
consumed by the multi-line branch of an unmarked opener.) -/
theorem C10_ignore_marker_frame_amended (name : Line) (imps : List Line)
    (h : ∀ l ∈ imps, shouldIgnoreLine l = true) :
    removeUnusedImports name imps = some imps := by
  unfold removeUnusedImports
  exact pruneScan_of_all_ignored _ _ imps imps h

/-- Witness for C10 (amended): a marked whole-line declaration of the very
symbol reported unused survives the pruner byte-for-byte. -/
theorem C10_ignore_marker_frame_witness :
    removeUnusedImports (str "os")
        [str "import os  # fmt: skip", str "import sys  # noqa: autoimport"] =
      some [str "import os  # fmt: skip", str "import sys  # noqa: autoimport"] :=
  C10_ignore_marker_frame_amended _ _ (by decide)

/-! ### Segmentation is a partition of the input lines (C5) -/

/-- The header extraction absorbs a prefix of the lines it is given. -/
theorem extractHeaderAux_take (ds : DocState) (ls : List Line) :
    ∃ n, extractHeaderAux ds ls = ls.take n := by
  induction ls generalizing ds with
  | nil => exact ⟨0, rfl⟩
  | cons l rest ih =>
    simp only [extractHeaderAux]
    split_ifs
    · exact ⟨1, rfl⟩
    · obtain ⟨n, hn⟩ := ih .multiML
      exact ⟨n + 1, by simp [List.take_succ_cons, hn]⟩
    · obtain ⟨n, hn⟩ := ih .startML
      exact ⟨n + 1, by simp [List.take_succ_cons, hn]⟩
    · obtain ⟨n, hn⟩ := ih ds
      exact ⟨n + 1, by simp [List.take_succ_cons, hn]⟩
    · exact ⟨0, rfl⟩
    · obtain ⟨n, hn⟩ := ih ds
      exact ⟨n + 1, by simp [List.take_succ_cons, hn]⟩

/-- No guard line (`try:` / `except ...:`) is immediately followed by another
guard line.  When two guards are adjacent and an import follows, the import
extraction of `_extract_import_statements` silently drops the first guard
from its buffer while still having consumed it, so the sections stop being a
partition of the input lines; this hypothesis rules that out.  (Adjacent
guard lines are an empty `try:` suite — a syntax error pyflakes reports.) -/
def noAdjacentGuards : List Line → Bool
  | a :: b :: rest => !(matchTryExcept a && matchTryExcept b) && noAdjacentGuards (b :: rest)
  | _ => true

theorem noAdjacentGuards_tail {l : Line} {rest : List Line}
    (h : noAdjacentGuards (l :: rest) = true) : noAdjacentGuards rest = true := by
  cases rest with
  | nil => rfl
  | cons r rest2 =>
    simp only [noAdjacentGuards, Bool.and_eq_true] at h
    exact h.2

theorem noAdjacentGuards_drop (n : Nat) (ls : List Line)
    (h : noAdjacentGuards ls = true) : noAdjacentGuards (ls.drop n) = true := by
  induction n generalizing ls with
  | zero => simpa using h
  | succ n ih =>
    cases ls with
    | nil => simpa using h
    | cons l rest =>
      rw [List.drop_succ_cons]
      exact ih rest (noAdjacentGuards_tail h)

/-- The import extraction absorbs a prefix of the lines it is given, provided
no two guard lines are adjacent; with a buffered guard line `t` (which is the
line immediately preceding, already consumed) it produces either nothing or
`t` followed by a prefix. -/
theorem extractImportsAux_take (ls : List Line) :
    (∀ mli, noAdjacentGuards ls = true →
      ∃ n, extractImportsAux mli none ls = ls.take n) ∧
    (∀ mli t, noAdjacentGuards ls = true →
      (∀ l, ls.head? = some l → matchTryExcept l = false) →
      extractImportsAux mli (some t) ls = [] ∨
        ∃ n, extractImportsAux mli (some t) ls = t :: ls.take n) := by
  induction ls with
  | nil =>
    refine ⟨fun mli _ => ⟨0, rfl⟩, fun mli t _ _ => Or.inl rfl⟩
  | cons l rest ih =>
    constructor
    · intro mli hadj
      by_cases h1 : matchTypeChecking l = true
      · exact ⟨0, by simp [extractImportsAux, h1]⟩
      by_cases h2 : matchTryExcept l = true
      · -- guard line: the buffer becomes `some l`
        have hstep : extractImportsAux mli none (l :: rest) =
            extractImportsAux mli (some l) rest := by
          simp [extractImportsAux, h1, h2]
        have hrest : noAdjacentGuards rest = true := noAdjacentGuards_tail hadj
        have hhead : ∀ r, rest.head? = some r → matchTryExcept r = false := by
          intro r hr
          cases rest with
          | nil => simp at hr
          | cons r2 rest2 =>
            simp only [List.head?_cons, Option.some.injEq] at hr
            subst hr
            have hc := hadj
            simp only [noAdjacentGuards, Bool.and_eq_true, Bool.not_eq_true', h2,
              Bool.true_and] at hc
            exact hc.1
        rcases (ih.2) mli l hrest hhead with hz | ⟨n, hn⟩
        · exact ⟨0, by rw [hstep, hz]; rfl⟩
        · exact ⟨n + 1, by rw [hstep, hn]; simp [List.take_succ_cons]⟩
      by_cases h3 : (matchImportStatement l || l == [] || mli) = true
      · have hstep : extractImportsAux mli none (l :: rest) =
            l :: extractImportsAux
              (if l.contains '(' then true else if l.contains ')' then false else mli)
              none rest := by
          simp only [extractImportsAux]
          rw [if_neg h1, if_neg h2, if_pos h3]
        obtain ⟨n, hn⟩ := (ih.1)
          (if l.contains '(' then true else if l.contains ')' then false else mli)
          (noAdjacentGuards_tail hadj)
        exact ⟨n + 1, by rw [hstep, hn]; simp [List.take_succ_cons]⟩
      · refine ⟨0, ?_⟩
        simp only [extractImportsAux]
        rw [if_neg h1, if_neg h2, if_neg h3]
        rfl
    · intro mli t hadj hhead
      by_cases h1 : matchTypeChecking l = true
      · exact Or.inl (by simp [extractImportsAux, h1])
      by_cases h2 : matchTryExcept l = true
      · exact absurd (hhead l rfl) (by simp [h2])
      by_cases h3 : (matchImportStatement l || l == [] || mli) = true
      · have hstep : extractImportsAux mli (some t) (l :: rest) =
            t :: l :: extractImportsAux
              (if l.contains '(' then true else if l.contains ')' then false else mli)
              none rest := by
          simp only [extractImportsAux]
          rw [if_neg h1, if_neg h2, if_pos h3]
        obtain ⟨n, hn⟩ := (ih.1)
          (if l.contains '(' then true else if l.contains ')' then false else mli)
          (noAdjacentGuards_tail hadj)
        exact Or.inr ⟨n + 1, by rw [hstep, hn]; simp [List.take_succ_cons]⟩
      · refine Or.inl ?_
        simp only [extractImportsAux]
        rw [if_neg h1, if_neg h2, if_neg h3]

/-- The inner typing extraction absorbs a prefix. -/
theorem extractTypingAux_take (ls : List Line) :
    ∃ n, extractTypingAux ls = ls.take n := by
  induction ls with
  | nil => exact ⟨0, rfl⟩
  | cons l rest ih =>
    simp only [extractTypingAux]
    split_ifs
    · exact ⟨0, rfl⟩
    · obtain ⟨n, hn⟩ := ih
      exact ⟨n + 1, by simp [List.take_succ_cons, hn]⟩

/-- The typing extraction absorbs a prefix. -/
theorem extractTyping_take (ls : List Line) :
    ∃ n, extractTyping ls = ls.take n := by
  cases ls with
  | nil => exact ⟨0, rfl⟩
  | cons l rest =>
    simp only [extractTyping]
    split_ifs
    · obtain ⟨n, hn⟩ := extractTypingAux_take rest
      exact ⟨n + 1, by simp [List.take_succ_cons, hn]⟩
    · exact ⟨0, rfl⟩

/-- A prefix of `ls` followed by the rest of `ls` is `ls`. -/
theorem take_append_drop_length {α : Type} (A ls : List α) (h : ∃ n, A = ls.take n) :
    A ++ ls.drop A.length = ls := by
  obtain ⟨n, rfl⟩ := h
  rw [List.length_take]
  rcases le_total n ls.length with h1 | h1
  · rw [Nat.min_eq_left h1, List.take_append_drop]
  · rw [Nat.min_eq_right h1, List.drop_length, List.take_of_length_le h1,
      List.append_nil]

/-- C5 (amended).  The textual round-trip fails (see the counterexample:
each section's surrounding whitespace, including the indentation of its
first line, is stripped by the join), but the structural half of the claim
holds: provided no guard line is immediately adjacent to another, the
segmenter partitions the input's lines into header, imports, typing and
body, in order, without loss, duplication or reordering — concatenating the
four sections restores exactly the original line sequence. -/
theorem C5_segmentation_partition (source : Line)
    (h : noAdjacentGuards (splitlines source) = true) :
    (splitCode source).header ++ ((splitCode source).imports ++
      ((splitCode source).typing ++ (splitCode source).code)) = splitlines source := by
  simp only [splitCode]
  have e1 := take_append_drop_length (extractHeaderAux .nodoc (splitlines source))
    (splitlines source) (extractHeaderAux_take .nodoc (splitlines source))
  have hadj1 := noAdjacentGuards_drop
    (extractHeaderAux .nodoc (splitlines source)).length (splitlines source) h
  have e2 := take_append_drop_length _ _
    ((extractImportsAux_take ((splitlines source).drop
      (extractHeaderAux .nodoc (splitlines source)).length)).1 false hadj1)
  have e3 := take_append_drop_length _ _
    (extractTyping_take (((splitlines source).drop
        (extractHeaderAux .nodoc (splitlines source)).length).drop
      (extractImportsAux false none ((splitlines source).drop
        (extractHeaderAux .nodoc (splitlines source)).length)).length))
  rw [e3, e2, e1]

/-- Witness for C5 (amended) on a concrete guarded text. -/
theorem C5_segmentation_partition_witness :
    (splitCode (str "# c\nimport os\n\nif TYPE_CHECKING:\n    import sys\nx = 1\n")).header ++
      (((splitCode (str "# c\nimport os\n\nif TYPE_CHECKING:\n    import sys\nx = 1\n")).imports) ++
        (((splitCode (str "# c\nimport os\n\nif TYPE_CHECKING:\n    import sys\nx = 1\n")).typing) ++
          (splitCode (str "# c\nimport os\n\nif TYPE_CHECKING:\n    import sys\nx = 1\n")).code)) =
      splitlines (str "# c\nimport os\n\nif TYPE_CHECKING:\n    import sys\nx = 1\n") :=
  C5_segmentation_partition _ (by decide)

/-! ### The separator split (C8) -/

theorem contains_eq_true_of_mem {c : Char} {l : Line} (h : c ∈ l) :
    l.contains c = true :=
  List.elem_iff.mpr h

theorem contains_eq_false_of_not_mem {c : Char} {l : Line} (h : c ∉ l) :
    l.contains c = false := by
  simpa using h

/-- `split` leaves a separator-free string whole. -/
theorem splitChar_of_not_mem {sep : Char} {a : Line} (h : sep ∉ a) :
    splitChar sep a = [a] := by
  induction a with
  | nil => rfl
  | cons c rest ih =>
    have hc : ¬(c == sep) = true := by
      simp only [beq_iff_eq]
      exact fun e => h (e ▸ List.mem_cons_self c rest)
    have hrest : sep ∉ rest := fun hm => h (List.mem_cons_of_mem c hm)
    simp only [splitChar, if_neg hc, ih hrest]

/-- `split` on a string with exactly one separator yields the two parts. -/
theorem splitChar_single {sep : Char} {a b : Line} (ha : sep ∉ a) (hb : sep ∉ b) :
    splitChar sep (a ++ sep :: b) = [a, b] := by
  induction a with
  | nil =>
    simp only [List.nil_append, splitChar, beq_self_eq_true, if_pos,
      splitChar_of_not_mem hb]
  | cons c rest ih =>
    have hc : ¬(c == sep) = true := by
      simp only [beq_iff_eq]
      exact fun e => ha (e ▸ List.mem_cons_self c rest)
    have hrest : sep ∉ rest := fun hm => ha (List.mem_cons_of_mem c hm)
    simp only [List.cons_append, splitChar, if_neg hc]
    have e : splitChar sep (rest.append (sep :: b)) = [rest, b] := ih hrest
    rw [e]

/-- C8 (amended).  A body line that is an import candidate and contains
exactly one statement separator (two or more raise, see the counterexample)
is split in two: the part before the separator is stripped and appended to
the imports section, and the part after it replaces the line in the body,
re-indented with as many space characters as the first part has leading
whitespace characters; nothing else changes. -/
theorem C8_separator_split_amended (a b : Line) (header imps typ : List Line)
    (tn : Bool)
    (ha : ';' ∉ a) (hb : ';' ∉ b)
    (hcand : matchImportCandidate (a ++ ';' :: b) = true)
    (heq : '=' ∉ a ++ ';' :: b)
    (hign : shouldIgnoreLine (a ++ ';' :: b) = false)
    (htog : (matchTripleAnywhere (a ++ ';' :: b) &&
      !matchTripleClosed (a ++ ';' :: b)) = false) :
    moveImportsToTop ⟨header, imps, typ, [a ++ ';' :: b], tn⟩ =
      some ⟨header, imps ++ [stripL a], typ,
            [List.replicate (a.length - (lstripL a).length) ' ' ++ lstripL b],
            tn⟩ := by
  have hsemi : (a ++ ';' :: b).contains ';' = true :=
    contains_eq_true_of_mem (List.mem_append_right a (List.mem_cons_self ';' b))
  have hsplit : splitSeparationLine (a ++ ';' :: b) =
      some (a, List.replicate (a.length - (lstripL a).length) ' ' ++ lstripL b) := by
    unfold splitSeparationLine
    rw [splitChar_single ha hb]
  have hmove : movePassAux false false [a ++ ';' :: b] =
      some ([List.replicate (a.length - (lstripL a).length) ' ' ++ lstripL b],
            [stripL a], []) := by
    have h4c : (a ++ ';' :: b).contains '=' = false := contains_eq_false_of_not_mem heq
    simp only [movePassAux]
    rw [if_neg (by simp [htog]), if_pos (by rw [h4c, hcand]; rfl),
      if_neg (by simp [hign]), if_pos hsemi, hsplit]
    rfl
  unfold moveImportsToTop
  rw [hmove]
  rfl

/-- Witness for C8 (amended). -/
theorem C8_separator_split_witness :
    moveImportsToTop ⟨[], [str "import io"], [], [str "    import os; print(os)"], true⟩ =
      some ⟨[], [str "import io", str "import os"], [],
            [str "    print(os)"], true⟩ := by
  have h := C8_separator_split_amended (str "    import os") (str " print(os)")
    [] [str "import io"] [] true (by decide) (by decide) (by decide) (by decide)
    (by decide) (by decide)
  exact h

/-! ### The join rule (C6) -/

/-- A non-empty string whose first and last characters are not whitespace
(so that Python's `strip` leaves it unchanged). -/
def cleanStr (l : Line) : Bool :=
  match l, l.reverse with
  | c :: _, d :: _ => !isPySpace c && !isPySpace d
  | _, _ => false

/-- A section whose joined text is `strip`-invariant and non-empty. -/
def cleanSection (sec : List Line) : Bool := cleanStr (joinLines sec)

theorem lstripL_of_clean {l : Line} (h : cleanStr l = true) : lstripL l = l := by
  cases l with
  | nil => exact absurd h (by decide)
  | cons c rest =>
    have hc : isPySpace c = false := by
      rcases hrev : (c :: rest).reverse with _ | ⟨d, r⟩
      · exact absurd (congrArg List.length hrev) (by simp)
      · unfold cleanStr at h
        rw [hrev] at h
        simp only [Bool.and_eq_true, Bool.not_eq_true'] at h
        exact h.1
    simp [lstripL, hc]

theorem rstripL_of_clean {l : Line} (h : cleanStr l = true) : rstripL l = l := by
  cases l with
  | nil => exact absurd h (by decide)
  | cons c rest =>
    rcases hrev : (c :: rest).reverse with _ | ⟨d, r⟩
    · exact absurd (congrArg List.length hrev) (by simp)
    · have hd : isPySpace d = false := by
        unfold cleanStr at h
        rw [hrev] at h
        simp only [Bool.and_eq_true, Bool.not_eq_true'] at h
        exact h.2
      have key : ((c :: rest).reverse).dropWhile isPySpace = (c :: rest).reverse := by
        rw [hrev, List.dropWhile_cons, if_neg (by simp [hd])]
      unfold rstripL
      rw [key, List.reverse_reverse]

theorem stripL_of_clean {l : Line} (h : cleanStr l = true) : stripL l = l := by
  rw [stripL, lstripL_of_clean h, rstripL_of_clean h]

/-- A clean section is neither empty nor `[""]`, so `_append_section` keeps it. -/
theorem cleanSection_guard {S : List Line} (h : cleanSection S = true) :
    (S.length == 0 || S == [[]]) = false := by
  rcases S with _ | ⟨l, rest⟩
  · exact absurd h (by decide)
  · rcases rest with _ | ⟨l2, rest2⟩
    · cases l with
      | nil => exact absurd h (by decide)
      | cons c cs => simp
    · simp

/-- Strip-invariance extends from the first block to anything appended on the
right (whitespace removal at the front only sees the first characters). -/
theorem lstripL_append_of_clean {X Y : Line} (h : cleanStr X = true) :
    lstripL (X ++ Y) = X ++ Y := by
  cases X with
  | nil => exact absurd h (by decide)
  | cons c rest =>
    have hc : isPySpace c = false := by
      rcases hrev : (c :: rest).reverse with _ | ⟨d, r⟩
      · exact absurd (congrArg List.length hrev) (by simp)
      · unfold cleanStr at h
        rw [hrev] at h
        simp only [Bool.and_eq_true, Bool.not_eq_true'] at h
        exact h.1
    simp [lstripL, hc]

/-- Strip-invariance extends from the last block to anything prepended. -/
theorem rstripL_append_of_clean {X Y : Line} (h : cleanStr Y = true) :
    rstripL (X ++ Y) = X ++ Y := by
  cases hrev : Y.reverse with
  | nil =>
    rw [List.reverse_eq_nil_iff] at hrev
    subst hrev
    exact absurd h (by decide)
  | cons d r =>
    have hd : isPySpace d = false := by
      cases Y with
      | nil => simp at hrev
      | cons c rest =>
        unfold cleanStr at h
        rw [hrev] at h
        simp only [Bool.and_eq_true, Bool.not_eq_true'] at h
        exact h.2
    have key : ((X ++ Y).reverse).dropWhile isPySpace = (X ++ Y).reverse := by
      rw [List.reverse_append, hrev, List.cons_append, List.dropWhile_cons,
        if_neg (by simp [hd])]
    unfold rstripL
    rw [key, List.reverse_reverse]

theorem stripL_append_three {X Y Z : Line} (hx : cleanStr X = true)
    (hz : cleanStr Z = true) : stripL (X ++ Y ++ Z) = X ++ Y ++ Z := by
  rw [stripL, show X ++ Y ++ Z = X ++ (Y ++ Z) from by simp,
    lstripL_append_of_clean hx, show X ++ (Y ++ Z) = X ++ Y ++ Z from by simp,
    rstripL_append_of_clean hz]

/-- C6 (amended).  The join concatenates the sections in header, imports,
typing, body order; each kept section after the first is preceded by 2, 2
and 3 newline *characters* respectively — that is, by 1, 1 and 2 blank
lines; a section that is empty or a single empty line is skipped entirely
(contributing neither content nor separators); the whole result is stripped
of surrounding whitespace and a final newline is appended exactly when the
original text ended with a line terminator.  Stated here for sections whose
joined text is non-empty and strip-invariant, which makes the overall strip
the identity. -/
theorem C6_join_rule_amended (H I T C : List Line) (tn : Bool)
    (hH : cleanSection H = true) (hI : cleanSection I = true)
    (hT : cleanSection T = true) (hC : cleanSection C = true) :
    joinCode ⟨H, I, T, C, tn⟩ =
      joinLines H ++ str "\n\n" ++ joinLines I ++ str "\n\n" ++ joinLines T ++
        str "\n\n\n" ++ joinLines C ++ (if tn then ['\n'] else []) := by
  have eH : appendSection [] H 0 = joinLines H := by
    unfold appendSection
    rw [if_neg (by simp [cleanSection_guard hH]), stripL_of_clean hH]
    rfl
  have eI : appendSection (joinLines H) I 2 =
      joinLines H ++ str "\n\n" ++ joinLines I := by
    unfold appendSection
    rw [if_neg (by simp [cleanSection_guard hI]), stripL_of_clean hI]
    rfl
  have eT : appendSection (joinLines H ++ str "\n\n" ++ joinLines I) T 2 =
      joinLines H ++ str "\n\n" ++ joinLines I ++ str "\n\n" ++ joinLines T := by
    unfold appendSection
    rw [if_neg (by simp [cleanSection_guard hT]), stripL_of_clean hT]
    simp [str]
  have eC : appendSection
      (joinLines H ++ str "\n\n" ++ joinLines I ++ str "\n\n" ++ joinLines T) C 3 =
      joinLines H ++ str "\n\n" ++ joinLines I ++ str "\n\n" ++ joinLines T ++
        str "\n\n\n" ++ joinLines C := by
    unfold appendSection
    rw [if_neg (by simp [cleanSection_guard hC]), stripL_of_clean hC]
    simp [str]
  have hstrip : stripL (joinLines H ++ str "\n\n" ++ joinLines I ++ str "\n\n" ++
      joinLines T ++ str "\n\n\n" ++ joinLines C) =
      joinLines H ++ str "\n\n" ++ joinLines I ++ str "\n\n" ++ joinLines T ++
        str "\n\n\n" ++ joinLines C := by
    have := @stripL_append_three (joinLines H)
      (str "\n\n" ++ joinLines I ++ str "\n\n" ++ joinLines T ++ str "\n\n\n")
      (joinLines C) hH hC
    simpa using this
  show (if tn then _ ++ ['\n'] else _) = _
  rw [eH, eI, eT, eC, hstrip]
  cases tn <;> simp

/-- Witness for C6 (amended): all four sections present and clean. -/
theorem C6_join_rule_witness :
    joinCode ⟨[str "# h"], [str "import os"], [str "if TYPE_CHECKING:"],
              [str "x = 1"], true⟩ =
      str "# h\n\nimport os\n\nif TYPE_CHECKING:\n\n\nx = 1\n" :=
  (C6_join_rule_amended [str "# h"] [str "import os"] [str "if TYPE_CHECKING:"]
    [str "x = 1"] true (by decide) (by decide) (by decide) (by decide)).trans
    (by decide)

/-! ### Whole-line removal (C7) — positive matcher lemmas -/

/-- A plain lowercase identifier: non-empty, characters in `[a-z]` only.
Such a name contains no regex metacharacter, no dot, no space, no `#` and no
`:`, which is what the positive lemmas below rely on. -/
def isName (l : Line) : Bool := !l.isEmpty && l.all isLowerAZ

theorem not_mem_of_isName {p : Line} (h : isName p = true) {c : Char}
    (hc : isLowerAZ c = false) : c ∉ p := by
  intro hm
  unfold isName at h
  rw [Bool.and_eq_true, List.all_eq_true] at h
  exact absurd (h.2 c hm) (by simp [hc])

theorem patPre_self_append (x y : Line) : patPre x (x ++ y) = true := by
  induction x with
  | nil => rfl
  | cons c cs ih => simp [patPre, ih]

theorem patPre_refl (x : Line) : patPre x x = true := by
  have := patPre_self_append x []
  simpa using this

theorem isPreL_self_append (x y : Line) : isPreL x (x ++ y) = true := by
  induction x with
  | nil => rfl
  | cons c cs ih => simp [isPreL, ih]

theorem mem_of_isPreL {pat s : Line} (h : isPreL pat s = true) :
    ∀ c ∈ pat, c ∈ s := by
  induction pat generalizing s with
  | nil => simp
  | cons a pat2 ih =>
    cases s with
    | nil => simp [isPreL] at h
    | cons b s2 =>
      simp only [isPreL, Bool.and_eq_true, beq_iff_eq] at h
      intro c hc
      rcases List.mem_cons.mp hc with rfl | hc2
      · exact h.1 ▸ List.mem_cons_self ..
      · exact List.mem_cons_of_mem _ (ih h.2 c hc2)

theorem existsKwTail_suffix {kw : Line} {f : Line → Bool} {l : Line}
    (h : existsKwTail kw f l = true) :
    ∃ s, s <:+ l ∧ isPreL kw s = true ∧ f (s.drop kw.length) = true := by
  induction l with
  | nil =>
    rw [existsKwTail, Bool.and_eq_true] at h
    exact ⟨[], List.suffix_rfl, h.1, h.2⟩
  | cons c cs ih =>
    rw [existsKwTail, Bool.or_eq_true] at h
    rcases h with h | h
    · rw [Bool.and_eq_true] at h
      exact ⟨c :: cs, List.suffix_rfl, h.1, h.2⟩
    · obtain ⟨s, hs, h1, h2⟩ := ih h
      exact ⟨s, hs.trans (List.suffix_cons c cs), h1, h2⟩

theorem matchHashKw_colon {kw aft l : Line} (hkw : ':' ∈ kw)
    (h : matchHashKw kw aft l = true) : ':' ∈ l := by
  unfold matchHashKw at h
  obtain ⟨s, hs, hpre, hf⟩ := existsKwTail_suffix h
  have hdrop : s.drop (str "#").length <:+ l :=
    (List.drop_suffix _ s).trans hs
  rw [Bool.or_eq_true] at hf
  rcases hf with hf | hf
  · rw [Bool.and_eq_true] at hf
    exact hdrop.subset (mem_of_isPreL hf.1 ':' hkw)
  · split at hf
    · rename_i r2 heq
      rw [Bool.and_eq_true] at hf
      have : ':' ∈ s.drop (str "#").length := by
        rw [heq]
        exact List.mem_cons_of_mem _ (mem_of_isPreL hf.1 ':' hkw)
      exact hdrop.subset this
    · exact absurd hf (by simp)

theorem shouldIgnore_false_of_no_colon {l : Line} (h : ':' ∉ l) :
    shouldIgnoreLine l = false := by
  cases hb : shouldIgnoreLine l
  · rfl
  · exfalso
    unfold shouldIgnoreLine at hb
    rw [Bool.or_eq_true] at hb
    rcases hb with hb | hb
    · exact h (matchHashKw_colon (by decide) hb)
    · exact h (matchHashKw_colon (by decide) hb)

theorem lowersThenComment_append {al r : Line} (hal : isName al = true)
    (hr : commentEnd r = true) : lowersThenComment (al ++ r) = true := by
  induction al with
  | nil => exact absurd hal (by decide)
  | cons a cs ih =>
    have h1 : isLowerAZ a = true := by
      unfold isName at hal
      rw [Bool.and_eq_true, List.all_eq_true] at hal
      exact hal.2 a (List.mem_cons_self ..)
    rw [List.cons_append, lowersThenComment, h1, Bool.true_and, Bool.or_eq_true]
    cases cs with
    | nil => exact Or.inl (by simpa using hr)
    | cons b cs2 =>
      refine Or.inr (ih ?_)
      unfold isName at hal ⊢
      rw [Bool.and_eq_true, List.all_eq_true] at hal
      rw [Bool.and_eq_true, List.all_eq_true]
      exact ⟨by simp, fun x hx => hal.2 x (List.mem_cons_of_mem _ hx)⟩

theorem aliasCommentEnd_as {al r : Line} (hal : isName al = true)
    (hr : commentEnd r = true) :
    aliasCommentEnd (str " as " ++ (al ++ r)) = true := by
  unfold aliasCommentEnd
  rw [Bool.or_eq_true]
  refine Or.inr ?_
  have e : (str " as " ++ (al ++ r)).dropWhile (fun c => c == ' ') =
      'a' :: 's' :: ' ' :: (al ++ r) := rfl
  rw [e]
  show (isPreL (str "as ") ('a' :: 's' :: ' ' :: (al ++ r)) &&
      lowersThenComment (List.drop 3 ('a' :: 's' :: ' ' :: (al ++ r)))) = true
  have e2 : isPreL (str "as ") ('a' :: 's' :: ' ' :: (al ++ r)) = true := by
    simp [str, isPreL]
  rw [e2, Bool.true_and]
  exact lowersThenComment_append hal hr

theorem wholeLineMatch_plain (p o : Line) :
    wholeLineMatch p o ((str "from " ++ p ++ str " import ") ++ o) = true := by
  have hlen : (str "from " ++ p ++ str " import ").length = 5 + p.length + 8 := by
    simp [str]
    omega
  simp only [wholeLineMatch]
  rw [Bool.or_eq_true]
  refine Or.inl ?_
  rw [Bool.and_eq_true]
  refine ⟨patPre_self_append .., ?_⟩
  rw [← hlen, List.drop_left, Bool.or_eq_true]
  refine Or.inr ?_
  rw [Bool.and_eq_true]
  refine ⟨patPre_refl o, ?_⟩
  rw [List.drop_length]
  rfl

theorem wholeLineMatch_pkg_alias (p o al : Line) (hal : isName al = true) :
    wholeLineMatch p o ((str "from " ++ p ++ str " import ") ++
      (p ++ ('.' :: (o ++ (str " as " ++ al))))) = true := by
  have hlen : (str "from " ++ p ++ str " import ").length = 5 + p.length + 8 := by
    simp [str]
    omega
  simp only [wholeLineMatch]
  rw [Bool.or_eq_true]
  refine Or.inl ?_
  rw [Bool.and_eq_true]
  refine ⟨patPre_self_append .., ?_⟩
  rw [← hlen, List.drop_left, Bool.or_eq_true]
  refine Or.inl ?_
  rw [Bool.and_eq_true]
  refine ⟨patPre_self_append .., ?_⟩
  rw [List.drop_left]
  show (patPre o (o ++ (str " as " ++ al)) &&
      aliasCommentEnd ((o ++ (str " as " ++ al)).drop o.length)) = true
  rw [Bool.and_eq_true]
  refine ⟨patPre_self_append .., ?_⟩
  rw [List.drop_left]
  have := @aliasCommentEnd_as al [] hal rfl
  simpa using this

theorem wholeLineMatch_import_alias_comment (o al c : Line)
    (hal : isName al = true) :
    wholeLineMatch [] o (str "import " ++
      (o ++ (str " as " ++ (al ++ (str "  # " ++ c))))) = true := by
  simp only [wholeLineMatch]
  rw [Bool.or_eq_true]
  refine Or.inr ?_
  rw [Bool.and_eq_true]
  refine ⟨isPreL_self_append .., ?_⟩
  rw [show (7 : Nat) = (str "import ").length from rfl, List.drop_left,
    Bool.or_eq_true]
  refine Or.inr ?_
  rw [Bool.and_eq_true]
  refine ⟨patPre_self_append .., ?_⟩
  rw [List.drop_left]
  exact aliasCommentEnd_as hal rfl

/-- `package_name` / `object_name` of a single-dotted name with dot-free
halves. -/
theorem splitDotted_dotted {p o : Line} (hp : '.' ∉ p) (ho : '.' ∉ o) :
    splitDotted (p ++ '.' :: o) = (p, o) := by
  unfold splitDotted
  rw [splitChar_single hp ho]
  rfl

/-- `package_name` / `object_name` of a dot-free name. -/
theorem splitDotted_plain {o : Line} (ho : '.' ∉ o) : splitDotted o = ([], o) := by
  unfold splitDotted
  rw [splitChar_of_not_mem ho]
  rfl

/-- An unmarked head line matched by the whole-line pattern is erased and the
scan stops. -/
theorem pruneScan_whole_head (p o L : Line) (post : List Line)
    (hig : shouldIgnoreLine L = false) (hw : wholeLineMatch p o L = true) :
    pruneScan p o (L :: post) (L :: post) = some post := by
  unfold pruneScan
  rw [if_neg (by simp [hig]), if_pos hw, List.erase_cons_head]

theorem not_mem_append_chars {c : Char} {x y : Line} (hx : c ∉ x) (hy : c ∉ y) :
    c ∉ x ++ y := by
  simp [List.mem_append, hx, hy]

theorem not_mem_cons_chars {c d : Char} {y : Line} (hcd : c ≠ d) (hy : c ∉ y) :
    c ∉ d :: y := by
  simp [hcd, hy]

/-- C7 (amended).  For a dotted name whose declaring line heads the imports
section and is exactly of one of the whole-line shapes —
`from <package> import <object>`, `from <package> import <package>.<object>
as <alias>`, or `import <object> as <alias>  # <comment>` — with package,
object, alias and comment plain lowercase names (in particular the alias
must be lowercase: an uppercase alias defeats the pattern, see the
counterexample), removeUnused deletes that entire line and stops, leaving
the rest untouched. -/
theorem C7_whole_line_removal_amended (p o al c : Line) (post : List Line)
    (hp : isName p = true) (ho : isName o = true) (hal : isName al = true)
    (hc : isName c = true) :
    removeUnusedImports (p ++ '.' :: o)
        (((str "from " ++ p ++ str " import ") ++ o) :: post) = some post ∧
    removeUnusedImports (p ++ '.' :: o)
        (((str "from " ++ p ++ str " import ") ++
          (p ++ ('.' :: (o ++ (str " as " ++ al))))) :: post) = some post ∧
    removeUnusedImports o
        ((str "import " ++ (o ++ (str " as " ++ (al ++ (str "  # " ++ c))))) :: post) =
      some post := by
  have hpd : '.' ∉ p := not_mem_of_isName hp (by decide)
  have hod : '.' ∉ o := not_mem_of_isName ho (by decide)
  have hpc : ':' ∉ p := not_mem_of_isName hp (by decide)
  have hoc : ':' ∉ o := not_mem_of_isName ho (by decide)
  have halc : ':' ∉ al := not_mem_of_isName hal (by decide)
  have hcc : ':' ∉ c := not_mem_of_isName hc (by decide)
  have hsplit := splitDotted_dotted hpd hod
  have hsplit2 := splitDotted_plain hod
  refine ⟨?_, ?_, ?_⟩
  · have hcol : ':' ∉ (str "from " ++ p ++ str " import ") ++ o :=
      not_mem_append_chars
        (not_mem_append_chars (not_mem_append_chars (by decide) hpc) (by decide)) hoc
    unfold removeUnusedImports
    rw [hsplit]
    exact pruneScan_whole_head p o _ post (shouldIgnore_false_of_no_colon hcol)
      (wholeLineMatch_plain p o)
  · have hcol : ':' ∉ (str "from " ++ p ++ str " import ") ++
        (p ++ ('.' :: (o ++ (str " as " ++ al)))) :=
      not_mem_append_chars
        (not_mem_append_chars (not_mem_append_chars (by decide) hpc) (by decide))
        (not_mem_append_chars hpc (not_mem_cons_chars (by decide)
          (not_mem_append_chars hoc (not_mem_append_chars (by decide) halc))))
    unfold removeUnusedImports
    rw [hsplit]
    exact pruneScan_whole_head p o _ post (shouldIgnore_false_of_no_colon hcol)
      (wholeLineMatch_pkg_alias p o al hal)
  · have hcol : ':' ∉ str "import " ++
        (o ++ (str " as " ++ (al ++ (str "  # " ++ c)))) :=
      not_mem_append_chars (by decide)
        (not_mem_append_chars hoc (not_mem_append_chars (by decide)
          (not_mem_append_chars halc (not_mem_append_chars (by decide) hcc))))
    unfold removeUnusedImports
    rw [hsplit2]
    exact pruneScan_whole_head [] o _ post (shouldIgnore_false_of_no_colon hcol)
      (wholeLineMatch_import_alias_comment o al c hal)

/-- Witness for C7 (amended): the three whole-line shapes at concrete names. -/
theorem C7_whole_line_removal_witness :
    removeUnusedImports (str "foo.bar") [str "from foo import bar"] = some [] ∧
    removeUnusedImports (str "foo.bar") [str "from foo import foo.bar as b"] =
      some [] ∧
    removeUnusedImports (str "bar") [str "import bar as b  # unused"] = some [] := by
  have h := C7_whole_line_removal_amended (str "foo") (str "bar") (str "b")
    (str "unused") [] (by decide) (by decide) (by decide) (by decide)
  exact ⟨h.1, h.2.1, h.2.2⟩

/-! ### Pruner precision (C3) — supporting lemmas -/

theorem patPre_length_le {x y : Line} (h : patPre x y = true) :
    x.length ≤ y.length := by
  induction x generalizing y with
  | nil => simp
  | cons c cs ih =>
    cases y with
    | nil => simp [patPre] at h
    | cons d ds =>
      rw [patPre, Bool.and_eq_true] at h
      simpa using ih h.2

theorem patPre_nil_false {x : Line} (h : x ≠ []) : patPre x [] = false := by
  cases x with
  | nil => exact absurd rfl h
  | cons c cs => rfl

theorem patPre_name_head_false {p : Line} (hp : isName p = true) {d : Char}
    (hd : isLowerAZ d = false) (rest : Line) : patPre p (d :: rest) = false := by
  cases p with
  | nil => exact absurd hp (by decide)
  | cons c cs =>
    have hc : isLowerAZ c = true := by
      unfold isName at hp
      rw [Bool.and_eq_true, List.all_eq_true] at hp
      exact hp.2 c (List.mem_cons_self ..)
    have h1 : ¬(c == '.') = true := by
      simp only [beq_iff_eq]
      intro e
      rw [e] at hc
      exact absurd hc (by decide)
    have h2 : ¬(c == d) = true := by
      simp only [beq_iff_eq]
      intro e
      rw [e] at hc
      exact absurd hc (by simp [hd])
    rw [patPre]
    simp [h1, h2]

theorem patPre_eq_of_no_dot {x y : Line} (hx : '.' ∉ x) (h : patPre x y = true)
    (hl : y.length ≤ x.length) : y = x := by
  induction x generalizing y with
  | nil =>
    cases y with
    | nil => rfl
    | cons d ds => simp at hl
  | cons c cs ih =>
    cases y with
    | nil => simp [patPre] at h
    | cons d ds =>
      rw [patPre, Bool.and_eq_true] at h
      have hcd : c = d := by
        have h0 := h.1
        rw [Bool.or_eq_true] at h0
        rcases h0 with h1 | h1
        · have e : c = '.' := by simpa using h1
          exact absurd (e ▸ List.mem_cons_self c cs) hx
        · exact (by simpa using h1 : c = d)
      have := ih (fun hm => hx (List.mem_cons_of_mem _ hm)) h.2 (by simpa using hl)
      rw [this, hcd]

theorem existsPatOccur_of_patPre {pat s : Line} (h : patPre pat s = true) :
    existsPatOccur pat s = true := by
  cases s with
  | nil => simpa [existsPatOccur] using h
  | cons c cs => simp [existsPatOccur, h]

theorem existsPatOccur_append_right {pat s : Line} (x : Line)
    (h : existsPatOccur pat s = true) : existsPatOccur pat (x ++ s) = true := by
  induction x with
  | nil => simpa using h
  | cons c cs ih =>
    rw [List.cons_append, existsPatOccur]
    simp [ih]

theorem containsSub_of_isPreL {pat s : Line} (h : isPreL pat s = true) :
    containsSub pat s = true := by
  cases s with
  | nil => simpa [containsSub] using h
  | cons c cs => simp [containsSub, h]

theorem containsSub_append_right {pat s : Line} (x : Line)
    (h : containsSub pat s = true) : containsSub pat (x ++ s) = true := by
  induction x with
  | nil => simpa using h
  | cons c cs ih =>
    rw [List.cons_append, containsSub]
    simp [ih]

theorem mem_joinSep {c : Char} {sep : Line} {lst : List Line}
    (h : c ∈ joinSep sep lst) : c ∈ sep ∨ ∃ x ∈ lst, c ∈ x := by
  induction lst with
  | nil => simp [joinSep] at h
  | cons x rest ih =>
    cases rest with
    | nil =>
      exact Or.inr ⟨x, List.mem_cons_self .., by simpa [joinSep] using h⟩
    | cons y rest2 =>
      rw [joinSep] at h
      rcases List.mem_append.mp h with h1 | h1
      · rcases List.mem_append.mp h1 with h2 | h2
        · exact Or.inr ⟨x, List.mem_cons_self .., h2⟩
        · exact Or.inl h2
      · rcases ih h1 with h2 | ⟨z, hz, hcz⟩
        · exact Or.inl h2
        · exact Or.inr ⟨z, List.mem_cons_of_mem _ hz, hcz⟩

theorem not_mem_joinSep {c : Char} {sep : Line} {lst : List Line}
    (hsep : c ∉ sep) (hlst : ∀ x ∈ lst, c ∉ x) : c ∉ joinSep sep lst := by
  intro hm
  rcases mem_joinSep hm with h | ⟨x, hx, hcx⟩
  · exact hsep h
  · exact hlst x hx hcx

theorem splitCommaSpace_of_no_comma {x : Line} (h : ',' ∉ x) :
    splitCommaSpace x = [x] := by
  induction x with
  | nil => rfl
  | cons c rest ih =>
    have hc : c ≠ ',' := fun e => h (e ▸ List.mem_cons_self c rest)
    have hrest : ',' ∉ rest := fun hm => h (List.mem_cons_of_mem c hm)
    rw [splitCommaSpace.eq_def]
    split
    · rename_i heq2
      exact absurd heq2 (by simp)
    · rename_i r heq2
      injection heq2 with e1 e2
      exact absurd e1 hc
    · rename_i c2 r2 hno heq2
      injection heq2 with e1 e2
      subst e1
      subst e2
      rw [ih hrest]

theorem splitCommaSpace_append {x r : Line} (h : ',' ∉ x) :
    splitCommaSpace (x ++ ',' :: ' ' :: r) = x :: splitCommaSpace r := by
  induction x with
  | nil => rfl
  | cons c rest ih =>
    have hc : c ≠ ',' := fun e => h (e ▸ List.mem_cons_self c rest)
    have hrest : ',' ∉ rest := fun hm => h (List.mem_cons_of_mem c hm)
    rw [List.cons_append, splitCommaSpace.eq_def]
    split
    · rename_i heq2
      exact absurd heq2 (by simp)
    · rename_i r2 heq2
      injection heq2 with e1 e2
      exact absurd e1 hc
    · rename_i c2 r2 hno heq2
      injection heq2 with e1 e2
      subst e1
      subst e2
      rw [ih hrest]

theorem splitCommaSpace_joinSep {lst : List Line}
    (h : ∀ e ∈ lst, ',' ∉ e) (hne : lst ≠ []) :
    splitCommaSpace (joinSep (str ", ") lst) = lst := by
  induction lst with
  | nil => exact absurd rfl hne
  | cons x rest ih =>
    cases rest with
    | nil => exact splitCommaSpace_of_no_comma (h x (List.mem_cons_self ..))
    | cons y rest2 =>
      have e : joinSep (str ", ") (x :: y :: rest2) =
          x ++ ',' :: ' ' :: joinSep (str ", ") (y :: rest2) := by
        rw [joinSep, List.append_assoc]
        rfl
      rw [e, splitCommaSpace_append (h x (List.mem_cons_self ..)),
        ih (fun z hz => h z (List.mem_cons_of_mem _ hz)) (by simp)]

theorem stripL_eq_self_of_forall {s : Line} (h : ∀ c ∈ s, isPySpace c = false) :
    stripL s = s := by
  have h1 : lstripL s = s := by
    unfold lstripL
    cases s with
    | nil => rfl
    | cons a l =>
      rw [List.dropWhile_cons, if_neg (by simp [h a (List.mem_cons_self ..)])]
  have h2 : rstripL s = s := by
    unfold rstripL
    have e : s.reverse.dropWhile isPySpace = s.reverse := by
      cases hr : s.reverse with
      | nil => rfl
      | cons a l =>
        have ha : isPySpace a = false := by
          refine h a ?_
          have : a ∈ s.reverse := hr ▸ List.mem_cons_self ..
          simpa using this
        rw [List.dropWhile_cons, if_neg (by simp [ha])]
    rw [e, List.reverse_reverse]
  rw [stripL, h1, h2]

/-- A space preceded by a character other than a comma, somewhere in the
line.  In a well-formed comma-space symbol list this never happens, which is
what rules out the ` as ` alias shape inside such a list. -/
def hasBadSpace : Line → Bool
  | a :: b :: rest => (b == ' ' && a != ',') || hasBadSpace (b :: rest)
  | _ => false

theorem hasBadSpace_cons_false {c : Char} {X : Line}
    (h : hasBadSpace (c :: X) = false) : hasBadSpace X = false := by
  cases X with
  | nil => rfl
  | cons b r =>
    rw [hasBadSpace] at h
    cases hb : hasBadSpace (b :: r) with
    | false => rfl
    | true => rw [hb] at h; simp at h

theorem hasBadSpace_append_false {t s : Line}
    (h : hasBadSpace (t ++ s) = false) : hasBadSpace s = false := by
  induction t with
  | nil => simpa using h
  | cons c t2 ih => exact ih (hasBadSpace_cons_false (by simpa using h))

theorem hasBadSpace_suffix_false {s l : Line} (hs : s <:+ l)
    (h : hasBadSpace l = false) : hasBadSpace s = false := by
  obtain ⟨t, rfl⟩ := hs
  exact hasBadSpace_append_false h

theorem hasBadSpace_of_no_space {l : Line} (h : ' ' ∉ l) :
    hasBadSpace l = false := by
  induction l with
  | nil => rfl
  | cons a rest ih =>
    cases rest with
    | nil => rfl
    | cons b r =>
      have hb : ¬(b == ' ') = true := by
        simp only [beq_iff_eq]
        exact fun e => h (by simp [e])
      have h2 : ' ' ∉ b :: r := fun hm => h (List.mem_cons_of_mem _ hm)
      rw [hasBadSpace]
      simp [hb, ih h2]

theorem hasBadSpace_append_of {x s : Line} (hx : ' ' ∉ x)
    (hs : hasBadSpace s = false)
    (hhead : ∀ b, s.head? = some b → b ≠ ' ') :
    hasBadSpace (x ++ s) = false := by
  induction x with
  | nil => simpa using hs
  | cons c x2 ih =>
    cases x2 with
    | nil =>
      cases s with
      | nil => rfl
      | cons b r =>
        have hb : ¬(b == ' ') = true := by
          simp only [beq_iff_eq]
          exact hhead b rfl
        show hasBadSpace (c :: b :: r) = false
        rw [hasBadSpace]
        simp [hb, hs]
    | cons d x3 =>
      have hd : ¬(d == ' ') = true := by
        simp only [beq_iff_eq]
        exact fun e => hx (e ▸ List.mem_cons_of_mem c (List.mem_cons_self d x3))
      have htail : ' ' ∉ d :: x3 := fun hm => hx (List.mem_cons_of_mem c hm)
      have hrec := ih htail
      show hasBadSpace (c :: d :: (x3 ++ s)) = false
      rw [hasBadSpace]
      simp only [List.cons_append] at hrec
      simp [hd, hrec]

theorem joinSep_names_head {lst : List Line} (h : ∀ e ∈ lst, isName e = true) :
    ∀ b, (joinSep (str ", ") lst).head? = some b → isLowerAZ b = true := by
  cases lst with
  | nil => intro b hb; simp [joinSep] at hb
  | cons x rest =>
    have hx := h x (List.mem_cons_self ..)
    cases x with
    | nil => exact absurd hx (by decide)
    | cons c cs =>
      have hc : isLowerAZ c = true := by
        unfold isName at hx
        rw [Bool.and_eq_true, List.all_eq_true] at hx
        exact hx.2 c (List.mem_cons_self ..)
      cases rest with
      | nil =>
        intro b hb
        simp only [joinSep, List.head?_cons, Option.some.injEq] at hb
        exact hb ▸ hc
      | cons y rest2 =>
        intro b hb
        rw [joinSep, List.cons_append, List.cons_append, List.head?_cons,
          Option.some.injEq] at hb
        exact hb ▸ hc

theorem hasBadSpace_joinSep {lst : List Line}
    (h : ∀ e ∈ lst, isName e = true) :
    hasBadSpace (joinSep (str ", ") lst) = false := by
  induction lst with
  | nil => rfl
  | cons x rest ih =>
    have hxname := h x (List.mem_cons_self ..)
    have hxs : ' ' ∉ x := not_mem_of_isName hxname (by decide)
    cases rest with
    | nil => exact hasBadSpace_of_no_space hxs
    | cons y rest2 =>
      have hrest : ∀ e ∈ y :: rest2, isName e = true :=
        fun e he => h e (List.mem_cons_of_mem _ he)
      have hJ := ih hrest
      have e : joinSep (str ", ") (x :: y :: rest2) =
          x ++ (',' :: ' ' :: joinSep (str ", ") (y :: rest2)) := by
        rw [joinSep, List.append_assoc]
        rfl
      rw [e]
      refine hasBadSpace_append_of hxs ?_ ?_
      · cases hJ2 : joinSep (str ", ") (y :: rest2) with
        | nil => decide
        | cons jh jt =>
          have hjh : isLowerAZ jh = true :=
            joinSep_names_head hrest jh (by rw [hJ2]; rfl)
          have hjh2 : ¬(jh == ' ') = true := by
            simp only [beq_iff_eq]
            intro e2
            rw [e2] at hjh
            exact absurd hjh (by decide)
          have h1 : hasBadSpace (' ' :: jh :: jt) = false := by
            rw [hasBadSpace]
            have := hJ2 ▸ hJ
            simp [hjh2, this]
          show hasBadSpace (',' :: ' ' :: jh :: jt) = false
          rw [hasBadSpace]
          simp [h1]
      · intro b hb
        simp only [List.head?_cons, Option.some.injEq] at hb
        rw [← hb]
        decide

theorem commentEnd_false_of {s l : Line} (hsuf : s <:+ l) (hne : s ≠ [])
    (hh : '#' ∉ l) : commentEnd s = false := by
  unfold commentEnd
  have h1 : s.isEmpty = false := by
    cases s with
    | nil => exact absurd rfl hne
    | cons a r => rfl
  rw [h1, Bool.false_or]
  split
  · rename_i r heq
    exfalso
    have hmem : '#' ∈ s.dropWhile (fun c => c == ' ') := by
      rw [heq]
      exact List.mem_cons_self ..
    exact hh (hsuf.subset ((List.dropWhile_suffix _).subset hmem))
  · rfl

theorem aliasCommentEnd_false_of {s l : Line} (hsuf : s <:+ l) (hne : s ≠ [])
    (hh : '#' ∉ l) (hbs : hasBadSpace l = false) : aliasCommentEnd s = false := by
  unfold aliasCommentEnd
  rw [commentEnd_false_of hsuf hne hh, Bool.false_or]
  show (isPreL (str "as ") (s.dropWhile (fun c => c == ' ')) &&
    lowersThenComment ((s.dropWhile (fun c => c == ' ')).drop 3)) = false
  by_cases hpre : isPreL (str "as ") (s.dropWhile (fun c => c == ' ')) = true
  · exfalso
    rcases hr2 : s.dropWhile (fun c => c == ' ') with _ | ⟨c1, r⟩
    · rw [hr2] at hpre
      exact absurd hpre (by decide)
    rcases r with _ | ⟨c2, r2⟩
    · rw [hr2] at hpre
      simp [isPreL] at hpre
    rcases r2 with _ | ⟨c3, r3⟩
    · rw [hr2] at hpre
      simp [isPreL] at hpre
    rw [hr2] at hpre
    simp only [str, isPreL, Bool.and_eq_true, beq_iff_eq] at hpre
    obtain ⟨e1, e2, e3, _⟩ := hpre
    have hbad : hasBadSpace (c1 :: c2 :: c3 :: r3) = true := by
      rw [← e1, ← e2, ← e3]
      rfl
    have hsuffix : (c1 :: c2 :: c3 :: r3) <:+ l := by
      have h0 : s.dropWhile (fun c => c == ' ') <:+ s := List.dropWhile_suffix _
      rw [hr2] at h0
      exact h0.trans hsuf
    have hfalse := hasBadSpace_suffix_false hsuffix hbs
    rw [hbad] at hfalse
    exact absurd hfalse (by simp)
  · have h0 : isPreL (str "as ") (s.dropWhile (fun c => c == ' ')) = false := by
      cases hb : isPreL (str "as ") (s.dropWhile (fun c => c == ' ')) with
      | false => rfl
      | true => exact absurd hb hpre
    rw [h0, Bool.false_and]

theorem isPySpace_false_of_lower {c : Char} (h : isLowerAZ c = true) :
    isPySpace c = false := by
  cases hb : isPySpace c with
  | false => rfl
  | true =>
    exfalso
    unfold isPySpace at hb
    simp only [Bool.or_eq_true, beq_iff_eq] at hb
    rcases hb with ((((e | e) | e) | e) | e) | e <;>
      (subst e; exact absurd h (by decide))

theorem stripL_of_isName {e : Line} (h : isName e = true) : stripL e = e := by
  refine stripL_eq_self_of_forall ?_
  intro c hc
  unfold isName at h
  rw [Bool.and_eq_true, List.all_eq_true] at h
  exact isPySpace_false_of_lower (h.2 c hc)

theorem comma_mem_joinSep₂ (x y : Line) (rest : List Line) :
    ',' ∈ joinSep (str ", ") (x :: y :: rest) := by
  rw [joinSep]
  exact List.mem_append.mpr (Or.inl (List.mem_append.mpr (Or.inr (by decide))))

theorem existsPatOccur_joinSep_mid (o : Line) (s1 s2 : List Line) :
    existsPatOccur o (joinSep (str ", ") (s1 ++ o :: s2)) = true := by
  induction s1 with
  | nil =>
    cases s2 with
    | nil => exact existsPatOccur_of_patPre (patPre_refl o)
    | cons y r =>
      rw [List.nil_append, joinSep, List.append_assoc]
      exact existsPatOccur_of_patPre (patPre_self_append ..)
  | cons x s1x ih =>
    have hne : s1x ++ o :: s2 ≠ [] := by simp
    rcases hR : s1x ++ o :: s2 with _ | ⟨z, zs⟩
    · exact absurd hR hne
    · rw [List.cons_append, hR, joinSep, ← hR]
      exact existsPatOccur_append_right _ ih

/-- The symbol-list text of a shared single-line import: all characters come
from the entries (lowercase names) or the `", "` separators. -/
theorem joined_no_char {syms : List Line} (hall : ∀ e ∈ syms, isName e = true)
    {c : Char} (hsep : c ∉ str ", ") (hlow : isLowerAZ c = false) :
    c ∉ joinSep (str ", ") syms :=
  not_mem_joinSep hsep (fun x hx => not_mem_of_isName (hall x hx) hlow)

theorem drop_fromImport (p rest : Line) :
    ((str "from " ++ p ++ str " import ") ++ rest).drop (5 + p.length + 8) = rest := by
  have hlen : (str "from " ++ p ++ str " import ").length = 5 + p.length + 8 := by
    simp [str]
    omega
  rw [← hlen, List.drop_left]

/-- The whole-line pattern does not match a shared multi-symbol line: the
object is followed by the rest of the comma-space list, which neither the
alias group nor the comment group can absorb. -/
theorem wholeLineMatch_joined_false {p o : Line} {syms1 syms2 : List Line}
    (ho : isName o = true)
    (hall : ∀ e ∈ syms1 ++ o :: syms2, isName e = true)
    (hmulti : syms1 ++ syms2 ≠ []) :
    wholeLineMatch p o ((str "from " ++ p ++ str " import ") ++
      joinSep (str ", ") (syms1 ++ o :: syms2)) = false := by
  have hdot : '.' ∉ joinSep (str ", ") (syms1 ++ o :: syms2) :=
    joined_no_char hall (by decide) (by decide)
  have hhash : '#' ∉ joinSep (str ", ") (syms1 ++ o :: syms2) :=
    joined_no_char hall (by decide) (by decide)
  have hbs : hasBadSpace (joinSep (str ", ") (syms1 ++ o :: syms2)) = false :=
    hasBadSpace_joinSep hall
  have hcomma : ',' ∈ joinSep (str ", ") (syms1 ++ o :: syms2) := by
    cases hs1c : syms1 with
    | nil =>
      cases hs2c : syms2 with
      | nil =>
        subst hs1c
        subst hs2c
        exact absurd rfl hmulti
      | cons y r =>
        subst hs1c
        subst hs2c
        exact comma_mem_joinSep₂ o y r
    | cons x r =>
      subst hs1c
      have hne : r ++ o :: syms2 ≠ [] := by simp
      rcases hR : r ++ o :: syms2 with _ | ⟨z, zs⟩
      · exact absurd hR hne
      · rw [List.cons_append, hR]
        exact comma_mem_joinSep₂ x z zs
  simp only [wholeLineMatch]
  rw [drop_fromImport]
  have himp : isPreL (str "import ") ((str "from " ++ p ++ str " import ") ++
      joinSep (str ", ") (syms1 ++ o :: syms2)) = false := rfl
  rw [himp, Bool.false_and, Bool.or_false]
  have hmatch : (match (joinSep (str ", ") (syms1 ++ o :: syms2)).drop p.length with
      | '.' :: r2 => patPre o r2 && aliasCommentEnd (r2.drop o.length)
      | _ => false) = false := by
    have hdd : '.' ∉ (joinSep (str ", ") (syms1 ++ o :: syms2)).drop p.length :=
      fun hm => hdot (List.drop_subset _ _ hm)
    rcases hd : (joinSep (str ", ") (syms1 ++ o :: syms2)).drop p.length with _ | ⟨d, r⟩
    · rfl
    · have hdne : d ≠ '.' := fun e => hdd (by rw [hd, e]; exact List.mem_cons_self ..)
      split
      · rename_i r2 heq2
        injection heq2 with e1 e2
        exact absurd e1 hdne
      · rfl
  rw [hmatch, Bool.and_false, Bool.false_or]
  by_cases hpo : patPre o (joinSep (str ", ") (syms1 ++ o :: syms2)) = true
  · have hdne : (joinSep (str ", ") (syms1 ++ o :: syms2)).drop o.length ≠ [] := by
      intro hnil
      have hlen2 : (joinSep (str ", ") (syms1 ++ o :: syms2)).length ≤ o.length := by
        have := congrArg List.length hnil
        rw [List.length_drop] at this
        simp at this
        omega
      have hEo := patPre_eq_of_no_dot (not_mem_of_isName ho (by decide)) hpo hlen2
      exact not_mem_of_isName ho (by decide) (hEo ▸ hcomma)
    have hac := aliasCommentEnd_false_of (List.drop_suffix _ _) hdne hhash hbs
    rw [hac, Bool.and_false, Bool.and_false]
  · have h0 : patPre o (joinSep (str ", ") (syms1 ++ o :: syms2)) = false := by
      cases hb : patPre o (joinSep (str ", ") (syms1 ++ o :: syms2)) with
      | false => rfl
      | true => exact absurd hb hpo
    rw [h0, Bool.false_and, Bool.and_false]

theorem sharedTopMatch_joined_true (p o : Line) (syms1 syms2 : List Line) :
    sharedTopMatch p o ((str "from " ++ p ++ str " import ") ++
      joinSep (str ", ") (syms1 ++ o :: syms2)) = true := by
  unfold sharedTopMatch
  rw [drop_fromImport, Bool.and_eq_true]
  exact ⟨patPre_self_append .., existsPatOccur_joinSep_mid o syms1 syms2⟩

theorem fromImport_split_space (p : Line) (E : Line) :
    (str "from " ++ p ++ str " import ") ++ E =
      (str "from " ++ p ++ str " import") ++ (' ' :: E) := by
  have e8 : str " import " = str " import" ++ [' '] := rfl
  rw [e8]
  simp [List.append_assoc]

theorem sharedNewLine_joined {p o : Line} {syms1 syms2 : List Line}
    (hall : ∀ e ∈ syms1 ++ o :: syms2, isName e = true)
    (hno : o ∉ syms1) :
    sharedNewLine p o ((str "from " ++ p ++ str " import ") ++
        joinSep (str ", ") (syms1 ++ o :: syms2)) =
      some ((str "from " ++ p ++ str " import") ++
        ' ' :: joinSep (str ", ") (syms1 ++ syms2)) := by
  have hhash : '#' ∉ joinSep (str ", ") (syms1 ++ o :: syms2) :=
    joined_no_char hall (by decide) (by decide)
  have hdrop : ((str "from " ++ p ++ str " import ") ++
      joinSep (str ", ") (syms1 ++ o :: syms2)).drop (5 + p.length + 7 + 1) =
      joinSep (str ", ") (syms1 ++ o :: syms2) := drop_fromImport p _
  have htake : (joinSep (str ", ") (syms1 ++ o :: syms2)).takeWhile
      (fun c => !(c == '#')) = joinSep (str ", ") (syms1 ++ o :: syms2) := by
    refine List.takeWhile_eq_self_iff.mpr ?_
    intro a ha
    simp only [Bool.not_eq_true', beq_eq_false_iff_ne, ne_eq]
    exact fun e => hhash (e ▸ ha)
  have hdropw : (joinSep (str ", ") (syms1 ++ o :: syms2)).dropWhile
      (fun c => !(c == '#')) = [] := by
    refine List.dropWhile_eq_nil_iff.mpr ?_
    intro a ha
    simp only [Bool.not_eq_true', beq_eq_false_iff_ne, ne_eq]
    exact fun e => hhash (e ▸ ha)
  have hsplit : splitCommaSpace (joinSep (str ", ") (syms1 ++ o :: syms2)) =
      syms1 ++ o :: syms2 :=
    splitCommaSpace_joinSep
      (fun e he => not_mem_of_isName (hall e he) (by decide)) (by simp)
  have hmap : (syms1 ++ o :: syms2).map stripL = syms1 ++ o :: syms2 := by
    have hcong : ∀ e ∈ syms1 ++ o :: syms2, stripL e = id e :=
      fun e he => stripL_of_isName (hall e he)
    rw [List.map_congr_left hcong, List.map_id]
  have hcontains : (syms1 ++ o :: syms2).contains o = true :=
    List.elem_iff.mpr (List.mem_append_right _ (List.mem_cons_self ..))
  have herase : (syms1 ++ o :: syms2).erase o = syms1 ++ syms2 := by
    rw [List.erase_append_right _ hno, List.erase_cons_head]
  have htakeX : ((str "from " ++ p ++ str " import ") ++
      joinSep (str ", ") (syms1 ++ o :: syms2)).take (5 + p.length + 7) =
      str "from " ++ p ++ str " import" := by
    rw [fromImport_split_space]
    have hlen : (5 + p.length + 7) = (str "from " ++ p ++ str " import").length := by
      simp [str]
      omega
    rw [hlen, List.take_left]
  simp only [sharedNewLine]
  rw [hdrop, htake, hdropw, hsplit, hmap, if_pos hcontains, herase, htakeX]
  rfl

theorem isName_ne_nil {o : Line} (h : isName o = true) : o ≠ [] := by
  intro e
  rw [e] at h
  exact absurd h (by decide)

theorem indexOf_head {α : Type} [BEq α] [LawfulBEq α] (a : α) (l : List α) :
    (a :: l).indexOf a = 0 := by
  simp [List.indexOf, List.findIdx_cons]

/-- Resolution of a shared single-line import: the matched line is replaced
in place by the list without the object. -/
theorem pruneScan_shared (p o : Line) (syms1 syms2 post : List Line)
    (hp : isName p = true) (ho : isName o = true)
    (hall : ∀ e ∈ syms1 ++ o :: syms2, isName e = true)
    (hno : o ∉ syms1) (hmulti : syms1 ++ syms2 ≠ []) :
    pruneScan p o
      (((str "from " ++ p ++ str " import ") ++
        joinSep (str ", ") (syms1 ++ o :: syms2)) :: post)
      (((str "from " ++ p ++ str " import ") ++
        joinSep (str ", ") (syms1 ++ o :: syms2)) :: post) =
      some (((str "from " ++ p ++ str " import") ++
        ' ' :: joinSep (str ", ") (syms1 ++ syms2)) :: post) := by
  have hcol : ':' ∉ (str "from " ++ p ++ str " import ") ++
      joinSep (str ", ") (syms1 ++ o :: syms2) :=
    not_mem_append_chars
      (not_mem_append_chars
        (not_mem_append_chars (by decide) (not_mem_of_isName hp (by decide)))
        (by decide))
      (joined_no_char hall (by decide) (by decide))
  have hw := @wholeLineMatch_joined_false p o syms1 syms2 ho hall hmulti
  unfold pruneScan
  rw [if_neg (by rw [shouldIgnore_false_of_no_colon hcol]; simp),
    if_neg (by rw [hw]; simp),
    if_pos (sharedTopMatch_joined_true p o syms1 syms2),
    sharedNewLine_joined hall hno, indexOf_head]
  rfl

/-- The whole-line pattern rejects a multi-line opener. -/
theorem wholeLineMatch_opener_false (p o : Line) (hp : isName p = true)
    (ho : isName o = true) :
    wholeLineMatch p o ((str "from " ++ p ++ str " import ") ++ ['(']) = false := by
  simp only [wholeLineMatch]
  rw [drop_fromImport]
  have himp : isPreL (str "import ")
      ((str "from " ++ p ++ str " import ") ++ ['(']) = false := rfl
  rw [himp, Bool.false_and, Bool.or_false,
    patPre_name_head_false hp (by decide), patPre_name_head_false ho (by decide),
    Bool.false_and, Bool.false_and, Bool.or_false, Bool.and_false]

/-- The shared-line pattern rejects a multi-line opener. -/
theorem sharedTopMatch_opener_false (p o : Line) (ho : isName o = true) :
    sharedTopMatch p o ((str "from " ++ p ++ str " import ") ++ ['(']) = false := by
  unfold sharedTopMatch
  rw [drop_fromImport]
  have h1 : existsPatOccur o ['('] = false := by
    rw [existsPatOccur, patPre_name_head_false ho (by decide),
      Bool.false_or, existsPatOccur, patPre_nil_false (isName_ne_nil ho)]
  rw [h1, Bool.and_false]

theorem multiOpenMatch_opener (p : Line) :
    multiOpenMatch p ((str "from " ++ p ++ str " import ") ++ ['(']) = true := by
  unfold multiOpenMatch
  rw [Bool.and_eq_true]
  refine ⟨patPre_self_append .., ?_⟩
  rw [List.getLast?_concat]
  rfl

theorem lazyWsThen_of_patPre {o l : Line} (h : patPre o l = true) :
    lazyWsThen o l = true := by
  cases l with
  | nil => simpa [lazyWsThen] using h
  | cons c cs => simp [lazyWsThen, h]

theorem lazyWsThen_spaces (o X : Line) (ho : isName o = true) :
    lazyWsThen o (str "    " ++ (o ++ X)) = true := by
  have hfalse : ∀ rest, patPre o (' ' :: rest) = false :=
    fun rest => patPre_name_head_false ho (by decide) rest
  have h2 : lazyWsThen o (o ++ X) = true :=
    lazyWsThen_of_patPre (patPre_self_append ..)
  show lazyWsThen o (' ' :: ' ' :: ' ' :: ' ' :: (o ++ X)) = true
  simp [lazyWsThen, hfalse, h2, isPySpace]

theorem prevLineMatch_opener (p : Line) :
    prevLineMatch ((str "from " ++ p ++ str " import ") ++ ['(']) = true := by
  unfold prevLineMatch
  rw [Bool.and_eq_true]
  constructor
  · rfl
  · rw [show (((str "from " ++ p ++ str " import ") ++ ['(']).dropWhile
        isPySpace).drop 5 = (p ++ str " import ") ++ ['('] from rfl,
      List.append_assoc]
    exact containsSub_append_right p (by decide)

theorem multiBranch_collapse (p o : Line) (post : List Line)
    (ho : isName o = true) :
    multiBranch o (((str "from " ++ p ++ str " import ") ++ ['(']) ::
      (str "    " ++ (o ++ [','])) :: str ")" :: post) 0 = post := by
  unfold multiBranch
  have hfind : findContFrom o 1
      ((str "    " ++ (o ++ [','])) :: str ")" :: post) = some 1 := by
    unfold findContFrom
    rw [if_pos (lazyWsThen_spaces o [','] ho)]
  rw [show ((((str "from " ++ p ++ str " import ") ++ ['(']) ::
      (str "    " ++ (o ++ [','])) :: str ")" :: post).drop (0 + 1)) =
      (str "    " ++ (o ++ [','])) :: str ")" :: post from rfl, hfind]
  show collapseCheck (((str "from " ++ p ++ str " import ") ++ ['(']) ::
    str ")" :: post) 1 = post
  unfold collapseCheck
  rw [if_pos ?hcond]
  case hcond =>
    rw [Bool.and_eq_true]
    exact ⟨prevLineMatch_opener p, by rfl⟩
  rfl

/-- Resolution of a multi-line import whose only symbol is the object: the
symbol line, the opener and the bare `)` closer are all removed. -/
theorem pruneScan_multiline (p o : Line) (post : List Line)
    (hp : isName p = true) (ho : isName o = true) :
    pruneScan p o
      ((((str "from " ++ p ++ str " import ") ++ ['(']) ::
        (str "    " ++ (o ++ [','])) :: str ")" :: post))
      ((((str "from " ++ p ++ str " import ") ++ ['(']) ::
        (str "    " ++ (o ++ [','])) :: str ")" :: post)) = some post := by
  have hcol : ':' ∉ (str "from " ++ p ++ str " import ") ++ ['('] :=
    not_mem_append_chars
      (not_mem_append_chars
        (not_mem_append_chars (by decide) (not_mem_of_isName hp (by decide)))
        (by decide))
      (by decide)
  unfold pruneScan
  rw [if_neg (by rw [shouldIgnore_false_of_no_colon hcol]; simp),
    if_neg (by rw [wholeLineMatch_opener_false p o hp ho]; simp),
    if_neg (by rw [sharedTopMatch_opener_false p o ho]; simp),
    if_pos (multiOpenMatch_opener p), indexOf_head, multiBranch_collapse p o post ho]

/-- C3 (amended).  For every dotted name `p.o` (with `p`, `o` plain lowercase
names) whose declaring line heads the imports section:
(1) if that line is `from p import s1, ..., o, ..., sn` — symbols separated
by comma-space, every symbol a plain lowercase name, `o` among them exactly
once before any equal symbol, and at least one other symbol present — then
removeUnused replaces the line in place by the same declaration without `o`,
every other symbol kept, and stops;
(2) if the name is declared by a multi-line parenthesized import whose only
symbol line is `    o,` and whose closing line is exactly `)`, removeUnused
deletes the whole statement: the symbol line, the opener and the closer.
(The comma-space and bare-name restrictions are forced by the
counterexample: `from foo import a,b` raises `ValueError` instead.) -/
theorem C3_pruner_precision_amended (p o : Line) (syms1 syms2 post : List Line)
    (hp : isName p = true) (ho : isName o = true)
    (hs : ∀ e ∈ syms1 ++ syms2, isName e = true)
    (hno : o ∉ syms1) (hmulti : syms1 ++ syms2 ≠ []) :
    removeUnusedImports (p ++ '.' :: o)
        (((str "from " ++ p ++ str " import ") ++
          joinSep (str ", ") (syms1 ++ o :: syms2)) :: post) =
      some (((str "from " ++ p ++ str " import") ++
        ' ' :: joinSep (str ", ") (syms1 ++ syms2)) :: post) ∧
    removeUnusedImports (p ++ '.' :: o)
        ((((str "from " ++ p ++ str " import ") ++ ['(']) ::
          (str "    " ++ (o ++ [','])) :: str ")" :: post)) = some post := by
  have hall : ∀ e ∈ syms1 ++ o :: syms2, isName e = true := by
    intro e he
    rcases List.mem_append.mp he with h1 | h1
    · exact hs e (List.mem_append_left _ h1)
    · rcases List.mem_cons.mp h1 with rfl | h2
      · exact ho
      · exact hs e (List.mem_append_right _ h2)
  have hpd : '.' ∉ p := not_mem_of_isName hp (by decide)
  have hod : '.' ∉ o := not_mem_of_isName ho (by decide)
  constructor
  · unfold removeUnusedImports
    rw [splitDotted_dotted hpd hod]
    exact pruneScan_shared p o syms1 syms2 post hp ho hall hno hmulti
  · unfold removeUnusedImports
    rw [splitDotted_dotted hpd hod]
    exact pruneScan_multiline p o post hp ho

/-- Witness for C3 (amended) at concrete names. -/
theorem C3_pruner_precision_witness :
    removeUnusedImports (str "foo.bar") [str "from foo import a, bar, c"] =
      some [str "from foo import a, c"] ∧
    removeUnusedImports (str "foo.bar")
        [str "from foo import (", str "    bar,", str ")"] = some [] := by
  have h := C3_pruner_precision_amended (str "foo") (str "bar")
    [str "a"] [str "c"] [] (by decide) (by decide) (by decide) (by decide)
    (by decide)
  exact ⟨h.1, h.2⟩

end Autoimport
